import Mathlib

/-!
# SDString: a shallow embedding of `sdstring.hpp`

The header defines three pieces:

* `secure_delete_allocator<T>`: a `malloc`/`free` allocator that zeroes a block
  in `deallocate` before freeing it;
* `basic_sdstring<charT>`: `std::basic_string` over that allocator, with
  interoperation operators against the ordinary `std::basic_string<charT>`;
* `sdstreambuf<charT>`: a stream buffer appending to a bound `basic_sdstring`.

Conventions of the embedding.

* A byte is a `Fin 256`.  `char` is one byte, `wchar_t` four bytes
  (little endian), as on the x86-64 Linux ABI; plain `char` is signed there.
* `size_t` is 64 bits, `int` is 32 bits; arithmetic that can wrap is written
  with explicit `%`.
* A raw pointer is modelled by the list of elements readable from it onwards.
  Reading past that list is undefined behaviour and is reported as `none`.
* A string object is its character sequence and its capacity.  The
  terminating NUL is not part of the sequence; `data`/`c_str` expose the
  sequence followed by the NUL.
* Memory is unbounded: `malloc` succeeds and no `length_error` is raised, so a
  string can grow to any length.
* Overload resolution is done by hand: each C++ expression is bound to the
  function the compiler selects for it, as explained at the definition.
-/

namespace SDString

/-! ## Bytes and character types -/

/-- One byte of memory. -/
abbrev Byte := Fin 256

/-- The C++ type `char`: one byte. -/
abbrev char := Fin 256

/-- The C++ type `wchar_t`: a 32-bit code unit. -/
abbrev wchar_t := Fin 4294967296

/-- What the templates need to know about their element type: `sizeof`, the
object representation, and the NUL element `charT()`. -/
class CharT (charT : Type) where
  sizeof : Nat
  toBytes : charT → List Byte
  nul : charT
  sizeof_pos : 0 < sizeof
  toBytes_length : ∀ c, (toBytes c).length = sizeof

instance instCharTchar : CharT char where
  sizeof := 1
  toBytes c := [c]
  nul := 0
  sizeof_pos := by decide
  toBytes_length _ := rfl

instance instCharTwchar : CharT wchar_t where
  sizeof := 4
  toBytes c :=
    [Fin.ofNat (c.val % 256), Fin.ofNat (c.val / 256 % 256),
     Fin.ofNat (c.val / 65536 % 256), Fin.ofNat (c.val / 16777216 % 256)]
  nul := 0
  sizeof_pos := by decide
  toBytes_length _ := rfl

/-- Object representation of an array of elements. -/
def bytesOf {charT : Type} [CharT charT] (l : List charT) : List Byte :=
  l.flatMap CharT.toBytes

/-- The value of a plain (signed) `char` after integral promotion to `int`. -/
def char_to_int (c : char) : Int :=
  if c.val < 128 then (c.val : Int) else (c.val : Int) - 256

/-- The conversion `(char)c` of an `int`: reduction modulo 256. -/
def int_to_char (c : Int) : char :=
  Fin.ofNat (c % 256).toNat

/-! ## Machine integers -/

/-- The difference `a - b` of two `size_t` values, modulo `2^64`. -/
def size_t_sub (a b : Nat) : Nat :=
  (a % 2 ^ 64 + (2 ^ 64 - b % 2 ^ 64)) % 2 ^ 64

/-- The sum `a + b` of two `size_t` values, modulo `2^64`. -/
def size_t_add (a b : Nat) : Nat :=
  (a + b) % 2 ^ 64

/-- The product `a * b` of two `size_t` values, modulo `2^64`. -/
def size_t_mul (a b : Nat) : Nat :=
  (a * b) % 2 ^ 64

/-- Narrowing of a `size_t` to a 32-bit signed `int`: the low 32 bits, read in
two's complement. -/
def size_t_to_int (n : Nat) : Int :=
  if n % 2 ^ 32 < 2 ^ 31 then ((n % 2 ^ 32 : Nat) : Int)
  else ((n % 2 ^ 32 : Nat) : Int) - 2 ^ 32

/-! ## C library primitives -/

/-- The call `memset(p, v, n)` on the block `p`: the first `n` bytes become `v`.
Writing past the end of the block is undefined (`none`). -/
def memset (p : List Byte) (v : Byte) (n : Nat) : Option (List Byte) :=
  if n ≤ p.length then some (List.replicate n v ++ p.drop n) else none

/-- The scan of `memcmp` over two blocks of equal length: the difference of the
first pair of unequal bytes, read as unsigned bytes, or `0`. -/
def memcmp_scan : List Byte → List Byte → Int
  | x :: a, y :: b => if x = y then memcmp_scan a b else (x.val : Int) - (y.val : Int)
  | _, _ => 0

/-- The call `memcmp(a, b, n)`: the first `n` bytes of both blocks are compared.
Fewer than `n` readable bytes on either side is undefined (`none`). -/
def memcmp (a b : List Byte) (n : Nat) : Option Int :=
  if n ≤ a.length ∧ n ≤ b.length then some (memcmp_scan (a.take n) (b.take n)) else none

/-- The length function `traits::length(p)` (`strlen`): the number of elements
before the first NUL.  No NUL in the readable memory is undefined (`none`). -/
def strlen {charT : Type} [CharT charT] [DecidableEq charT] : List charT → Option Nat
  | [] => none
  | c :: cs => if c = CharT.nul then some 0 else (strlen cs).map (· + 1)

/-! ## `secure_delete_allocator<T>` -/

/-- An allocator object `secure_delete_allocator<T>`: the struct has no data
member. -/
structure secure_delete_allocator (T : Type) where
  mk ::

namespace secure_delete_allocator

/-- The member `max_size()`: `numeric_limits<size_t>::max() / sizeof(T)`. -/
def max_size (sizeofT : Nat) : Nat :=
  (2 ^ 64 - 1) / sizeofT

/-- The byte count `allocate(n)` passes to `malloc`: `n * sizeof(T)` in
`size_t` arithmetic. -/
def allocate_bytes (sizeofT : Nat) (n : Nat) : Nat :=
  size_t_mul n sizeofT

/-- The member `deallocate(p, n)`: `memset((void*)p, 0, n); free(p);`.  The
argument `block` is the content of the block `p` points to; the result is the
content of that block at the moment it is passed to `free`. -/
def deallocate (block : List Byte) (n : Nat) : Option (List Byte) :=
  memset block 0 n

/-- The member `allocate(n)`: `malloc(n * sizeof(value_type))`, cast and
returned as it is.  The parameter `malloc` is the system allocator: from a byte
count to the address of a block, or `none` for the null pointer. -/
def allocate (malloc : Nat → Option Nat) (sizeofT : Nat) (n : Nat) : Option Nat :=
  let p := malloc (allocate_bytes sizeofT n)
  p

/-- The operator `operator==(const secure_delete_allocator<T>&, const secure_delete_allocator<U>&)`:
`return true;`. -/
def operator_eq {T U : Type} (_a : secure_delete_allocator T) (_b : secure_delete_allocator U) :
    Bool :=
  true

/-- The operator `operator!=(const secure_delete_allocator<T>&, const secure_delete_allocator<U>&)`:
`return false;`. -/
def operator_ne {T U : Type} (_a : secure_delete_allocator T) (_b : secure_delete_allocator U) :
    Bool :=
  false

end secure_delete_allocator

/-! ## `std::basic_string<charT, traits, Allocator>` -/

/-- The two allocators a string in this header is instantiated with. -/
inductive Allocator where
  | std_allocator
  | secure_delete_allocator
  deriving DecidableEq, Repr

/-- A `std::basic_string<charT, char_traits<charT>, alloc>` object: its
characters (without the terminating NUL) and its capacity. -/
structure basic_string (charT : Type) (alloc : Allocator) where
  chars : List charT
  capacity : Nat
  deriving DecidableEq, Repr

/-- The ordinary string `std::basic_string<charT>`. -/
abbrev std_string (charT : Type) := basic_string charT Allocator.std_allocator

/-- The class `basic_sdstring<charT>`; it adds no data member to its base
`std::basic_string<charT, char_traits<charT>, secure_delete_allocator<charT>>`. -/
abbrev basic_sdstring (charT : Type) := basic_string charT Allocator.secure_delete_allocator

/-- The string `sdstring`. -/
abbrev sdstring := basic_sdstring char

/-- The string `sdwstring`. -/
abbrev sdwstring := basic_sdstring wchar_t

namespace basic_string

variable {charT : Type} [CharT charT] [DecidableEq charT] {alloc alloc2 : Allocator}

/-- The default constructor: the empty string. -/
def empty : basic_string charT alloc := ⟨[], 0⟩

/-- The member `size()`. -/
def size (s : basic_string charT alloc) : Nat := s.chars.length

/-- The members `data()` and `c_str()`: a pointer to the characters followed by
the terminating NUL. -/
def data (s : basic_string charT alloc) : List charT := s.chars ++ [CharT.nul]

/-- The member `c_str()`. -/
def c_str (s : basic_string charT alloc) : List charT := s.data

/-- The member `reserve(n)`: the capacity becomes at least `n`; the characters
are untouched. -/
def reserve (s : basic_string charT alloc) (n : Nat) : basic_string charT alloc :=
  ⟨s.chars, max s.capacity n⟩

/-- The member `append(const charT* p, size_type n)`: appends the `n` elements
at `p`.  Fewer than `n` readable elements is undefined (`none`). -/
def append_n (s : basic_string charT alloc) (p : List charT) (n : Nat) :
    Option (basic_string charT alloc) :=
  if n ≤ p.length then
    some ⟨s.chars ++ p.take n, max s.capacity (s.chars.length + n)⟩
  else none

/-- The member `append(const charT* p)`: appends the `traits::length(p)`
elements before the first NUL at `p`. -/
def append_cstr (s : basic_string charT alloc) (p : List charT) :
    Option (basic_string charT alloc) :=
  (strlen p).bind (fun n => s.append_n p n)

/-- The member `append(str)` for a string object `str` (of either allocator,
through the overload for the string itself or for a string view of it): appends
all `str.size()` characters of `str`. -/
def append (s : basic_string charT alloc) (str : basic_string charT alloc2) :
    basic_string charT alloc :=
  ⟨s.chars ++ str.chars, max s.capacity (s.chars.length + str.chars.length)⟩

/-- The member `push_back(c)`. -/
def push_back (s : basic_string charT alloc) (c : charT) : basic_string charT alloc :=
  ⟨s.chars ++ [c], max s.capacity (s.chars.length + 1)⟩

/-- The constructor `basic_string(const charT* p, size_type n)`: the `n`
elements at `p`.  Fewer than `n` readable elements is undefined (`none`). -/
def from_ptr_len (p : List charT) (n : Nat) : Option (basic_string charT alloc) :=
  if n ≤ p.length then some ⟨p.take n, n⟩ else none

/-- The constructor `basic_string(const charT* p)`: the elements before the
first NUL at `p`. -/
def from_cstr (p : List charT) : Option (basic_string charT alloc) :=
  (strlen p).bind (fun n => from_ptr_len p n)

/-- Copy assignment `*this = rhs` of the base string: the characters of `rhs`
are copied into storage owned by `*this`. -/
def assign (s rhs : basic_string charT alloc) : basic_string charT alloc :=
  ⟨rhs.chars, max s.capacity rhs.chars.length⟩

/-- The comparison `lhs == p` of a string with a NUL-terminated pointer
(`lhs.compare(p) == 0`): `lhs` against the `traits::length(p)` elements at `p`. -/
def eq_cstr (lhs : basic_string charT alloc) (p : List charT) : Option Bool :=
  (strlen p).map (fun n => decide (lhs.chars = p.take n))

/-- The comparison `lhs != p` of a string with a NUL-terminated pointer. -/
def ne_cstr (lhs : basic_string charT alloc) (p : List charT) : Option Bool :=
  (strlen p).map (fun n => !decide (lhs.chars = p.take n))

/-- The constant `npos`: the largest `size_t`. -/
def npos : Nat := 2 ^ 64 - 1

/-- The search of `find(c, pos)` over the characters from index `i` on: the
index of the first one equal to `c`, or `npos`. -/
def find_loop (c : charT) : List charT → Nat → Nat
  | [], _ => npos
  | x :: xs, i => if x = c then i else find_loop c xs (i + 1)

/-- The member `find(charT c, size_type pos)`: the smallest index `i >= pos`,
`i < size()`, with `(*this)[i] == c`, or `npos`. -/
def find_char (s : basic_string charT alloc) (c : charT) (pos : Nat) : Nat :=
  find_loop c (s.chars.drop pos) pos

end basic_string

/-! ## `basic_sdstring<charT>` -/

namespace basic_sdstring

variable {charT : Type} [CharT charT] [DecidableEq charT] {alloc : Allocator}

/-- The copy constructor `basic_sdstring(const basic_sdstring & rhs)`:
`base_type(rhs.data(), rhs.size())`. -/
def copy_ctor (rhs : basic_sdstring charT) : Option (basic_sdstring charT) :=
  basic_string.from_ptr_len rhs.data rhs.size

/-- The converting constructor `basic_sdstring(const std::basic_string<charT> & rhs)`:
`base_type(rhs.data(), rhs.size())`. -/
def of_std_string (rhs : std_string charT) : Option (basic_sdstring charT) :=
  basic_string.from_ptr_len rhs.data rhs.size

/-- The constructor `basic_sdstring(const char* rhs, size_t size)`. -/
def of_ptr_len (rhs : List char) (size : Nat) : Option sdstring :=
  basic_string.from_ptr_len rhs size

/-- The constructor `basic_sdstring(const char * rhs)`. -/
def of_cstr (rhs : List char) : Option sdstring :=
  basic_string.from_cstr rhs

/-- The member `find(const std::basic_string<charT>& in, size_t pos)`:
`find(*in.c_str(), pos)`, the inherited search for one character, called with
the element `in.c_str()` points to. -/
def find (this : basic_sdstring charT) (needle : std_string charT) (pos : Nat) : Option Nat :=
  needle.c_str.head?.map fun c => this.find_char c pos

/-- The loop of `compare`,
`for (size_t i = 0; i < l && iRet == 0; ++i) iRet = *(a++) - *(b++);`,
entered at index `i` with `rem = l - i` iterations left; `a` and `b` are the
buffers the two pointers were taken from.  A read outside a buffer is undefined
(`none`). -/
def compare_loop (a b : List char) : Nat → Nat → Int → Option Int
  | 0, _, iRet => some iRet
  | rem + 1, i, iRet =>
    if iRet = 0 then
      match a[i]?, b[i]? with
      | some x, some y => compare_loop a b rem (i + 1) (char_to_int x - char_to_int y)
      | _, _ => none
    else some iRet

/-- The members `compare(const basic_sdstring& rhs)` and
`compare(const std::basic_string<charT>& rhs)`.  The two bodies are the same
text; they differ in the type of `rhs` only, here the allocator parameter.
(Both read the buffers through `const char *`, so `charT` is `char`.) -/
def compare (this : sdstring) (rhs : basic_string char alloc) : Option Int :=
  let iRet : Int := size_t_to_int (size_t_sub this.size rhs.size)
  if iRet ≠ 0 then some iRet
  else compare_loop this.c_str rhs.c_str this.size 0 iRet

/-- The member `operator==(const basic_sdstring& rhs)` (compiled before C++20):
a length check, then `memcmp(rhs.data(), this->data(), this->size()) == 0`. -/
def operator_eq (this rhs : basic_sdstring charT) : Option Bool :=
  if rhs.size ≠ this.size then some false
  else (memcmp (bytesOf rhs.data) (bytesOf this.data) this.size).map (fun r => decide (r = 0))

/-- The member `operator!=(const basic_sdstring& rhs)` (compiled before C++20). -/
def operator_ne (this rhs : basic_sdstring charT) : Option Bool :=
  if rhs.size ≠ this.size then some true
  else (memcmp (bytesOf rhs.data) (bytesOf this.data) this.size).map (fun r => decide (r ≠ 0))

/-- The member `operator==(const char* rhs)`. -/
def operator_eq_cstr (this : sdstring) (rhs : List char) : Option Bool :=
  (of_cstr rhs).bind fun tmp =>
    if tmp.size ≠ this.size then some false
    else (memcmp (bytesOf rhs) (bytesOf this.data) this.size).map (fun r => decide (r = 0))

/-- The member `operator!=(const char* rhs)`. -/
def operator_ne_cstr (this : sdstring) (rhs : List char) : Option Bool :=
  (of_cstr rhs).bind fun tmp =>
    if tmp.size ≠ this.size then some true
    else (memcmp (bytesOf rhs) (bytesOf this.data) this.size).map (fun r => decide (r ≠ 0))

/-- The expression `S == O` for a secure `S` and an ordinary `O`: the only
viable candidate is the member `operator==(const basic_sdstring&)`, `O` being
converted by the constructor from `std::basic_string<charT>`. -/
def eq_std_string (this : basic_sdstring charT) (o : std_string charT) : Option Bool :=
  (of_std_string o).bind fun tmp => operator_eq this tmp

/-- The expression `S != O` for a secure `S` and an ordinary `O`: the member
`operator!=(const basic_sdstring&)` after the same conversion. -/
def ne_std_string (this : basic_sdstring charT) (o : std_string charT) : Option Bool :=
  (of_std_string o).bind fun tmp => operator_ne this tmp

end basic_sdstring

/-! ## Free operators -/

section operators

variable {charT : Type} [CharT charT] [DecidableEq charT]

/-- The size `sizeof(const char*)` of a pointer. -/
def sizeof_ptr : Nat := 8

/-- The argument of `reserve` in `operator+(secure, ordinary)`. -/
def operator_plus_sd_str_reserve (lhs : basic_sdstring charT) (rhs : std_string charT) : Nat :=
  size_t_add lhs.size rhs.size

/-- The operator `operator+(const basic_sdstring<charT> & lhs, const std::basic_string<charT> & rhs)`. -/
def operator_plus_sd_str (lhs : basic_sdstring charT) (rhs : std_string charT) :
    basic_sdstring charT :=
  let ret : basic_sdstring charT := basic_string.empty
  let ret := ret.reserve (operator_plus_sd_str_reserve lhs rhs)
  let ret := ret.append lhs
  let ret := ret.append rhs
  ret

/-- The argument of `reserve` in `operator+(secure, secure)`. -/
def operator_plus_sd_sd_reserve (lhs rhs : basic_sdstring charT) : Nat :=
  size_t_add lhs.size rhs.size

/-- The operator `operator+(const basic_sdstring<charT> & lhs, const T & rhs)` with
`T = basic_sdstring<charT>`. -/
def operator_plus_sd_sd (lhs rhs : basic_sdstring charT) : basic_sdstring charT :=
  let ret : basic_sdstring charT := basic_string.empty
  let ret := ret.reserve (operator_plus_sd_sd_reserve lhs rhs)
  let ret := ret.append lhs
  let ret := ret.append rhs
  ret

/-- The argument of `reserve` in `operator+(const char*, secure)`:
`sizeof(lhs) + rhs.size()`, `lhs` being a pointer. -/
def operator_plus_cstr_sd_reserve (_lhs : List char) (rhs : sdstring) : Nat :=
  size_t_add sizeof_ptr rhs.size

/-- The operator `operator+(const char* lhs, const basic_sdstring<charT> & rhs)`. -/
def operator_plus_cstr_sd (lhs : List char) (rhs : sdstring) : Option sdstring :=
  let ret : sdstring := basic_string.empty
  let ret := ret.reserve (operator_plus_cstr_sd_reserve lhs rhs)
  (ret.append_cstr lhs).map fun ret =>
    let ret := ret.append rhs
    ret

/-- The argument of `reserve` in `operator+(secure, const char*)`:
`ret.size() + sizeof(rhs)`, `ret` being the fresh result and `rhs` a pointer. -/
def operator_plus_sd_cstr_reserve (_lhs : sdstring) (_rhs : List char) : Nat :=
  let ret : sdstring := basic_string.empty
  size_t_add ret.size sizeof_ptr

/-- The operator `operator+(const basic_sdstring<charT> & lhs, const char* rhs)`. -/
def operator_plus_sd_cstr (lhs : sdstring) (rhs : List char) : Option sdstring :=
  let ret : sdstring := basic_string.empty
  let ret := ret.reserve (operator_plus_sd_cstr_reserve lhs rhs)
  let ret := ret.append lhs
  ret.append_cstr rhs

/-- The operator `operator+(const std::basic_string<charT> & lhs, const basic_sdstring<charT> & rhs)`:
the result is an ordinary string; `rhs` is appended through `rhs.c_str()`. -/
def operator_plus_str_sd (lhs : std_string charT) (rhs : basic_sdstring charT) :
    Option (std_string charT) :=
  let ret : std_string charT := basic_string.empty
  let ret := ret.reserve (size_t_add lhs.size rhs.size)
  let ret := ret.append lhs
  ret.append_cstr rhs.c_str

/-- The operator `operator==(const T & lhs, const basic_sdstring<charT> & rhs)` with
`T = std::basic_string<charT>`: `lhs == rhs.c_str()`. -/
def operator_eq_str_sd (lhs : std_string charT) (rhs : basic_sdstring charT) : Option Bool :=
  lhs.eq_cstr rhs.c_str

/-- The operator `operator!=(const T & lhs, const basic_sdstring<charT> & rhs)` with
`T = std::basic_string<charT>`: `lhs != rhs.c_str()`. -/
def operator_ne_str_sd (lhs : std_string charT) (rhs : basic_sdstring charT) : Option Bool :=
  lhs.ne_cstr rhs.c_str

end operators

/-! ## Objects in memory

Copying and moving are about object identity (`&rhs != this`), so strings are
also placed in a store: a map from addresses to the `basic_sdstring` object
living there.  Every `std::basic_string` owns its buffer exclusively, so the
value at one address is the whole state of that object. -/

/-- The address of an object. -/
abbrev Addr := Nat

/-- The `basic_sdstring<charT>` objects in memory, by address. -/
def Store (charT : Type) := Addr → basic_sdstring charT

namespace Store

variable {charT : Type} [CharT charT] [DecidableEq charT]

/-- The store in which the object at `a` has become `v`. -/
def set (st : Store charT) (a : Addr) (v : basic_sdstring charT) : Store charT :=
  fun x => if x = a then v else st x

/-- Copy construction `basic_sdstring B(A)` of a new object at `b` from the
object at `a`. -/
def copy_construct (st : Store charT) (b a : Addr) : Option (Store charT) :=
  (basic_sdstring.copy_ctor (st a)).map fun v => st.set b v

/-- The member `operator=(const basic_sdstring& rhs)` called on the object at
`this`: `if (&rhs != this) base(*this) = base(rhs);`. -/
def copy_assign (st : Store charT) (this rhs : Addr) : Store charT :=
  if rhs ≠ this then st.set this ((st this).assign (st rhs)) else st

/-- Move construction `basic_sdstring B(std::move(A))` of a new object at `b`
from the object at `a`: `base_type(std::move(rhs))`.  The new object takes over
the state of `A`; the standard leaves `A` valid but unspecified, and `residue`
is the value the library leaves there. -/
def move_construct (st : Store charT) (b a : Addr) (residue : basic_sdstring charT) :
    Store charT :=
  (st.set b (st a)).set a residue

/-- The member `operator=(basic_sdstring && rhs)` called on the object at
`this`: `if (&rhs != this) base(*this) = static_cast<const base_type&&>(rhs);`.
The right-hand side is a const rvalue, which binds to the copy assignment of
the base only, so `rhs` keeps its state. -/
def move_assign (st : Store charT) (this rhs : Addr) : Store charT :=
  if rhs ≠ this then st.set this ((st this).assign (st rhs)) else st

/-- The call `B.append(p)` with a NUL-terminated pointer, on the object at `b`. -/
def append_cstr (st : Store charT) (b : Addr) (p : List charT) : Option (Store charT) :=
  ((st b).append_cstr p).map fun v => st.set b v

/-- The assignment `A = p` of a NUL-terminated pointer to the object at `a`
(the inherited `operator=(const charT*)`). -/
def assign_cstr (st : Store charT) (a : Addr) (p : List charT) : Option (Store charT) :=
  (strlen p).bind fun n =>
    if n ≤ p.length then
      some (st.set a ⟨p.take n, max (st a).capacity n⟩)
    else none

end Store

/-! ## `sdstreambuf<charT>` -/

/-- The class `sdstreambuf<charT>`: its only member is the reference `sBuffer`
to the bound string, here the state of that string. -/
structure sdstreambuf (charT : Type) where
  sBuffer : basic_sdstring charT

namespace sdstreambuf

variable {charT : Type} [CharT charT] [DecidableEq charT]

/-- The member `xsputn(s, n)`: `sBuffer.append(s, n); return n;`.  The signed
`streamsize n` is converted to `size_type` for `append`. -/
def xsputn (sb : sdstreambuf charT) (s : List charT) (n : Int) :
    Option (sdstreambuf charT × Int) :=
  (sb.sBuffer.append_n s (n % 2 ^ 64).toNat).map fun b => (⟨b⟩, n)

/-- The member `overflow(c)`: `sBuffer.push_back((char)c); return c;`.  Its
return type is `std::basic_ostream<char>::int_type`, that is `int`; the
adapter is modelled over `char`. -/
def overflow (sb : sdstreambuf char) (c : Int) : sdstreambuf char × Int :=
  (⟨sb.sBuffer.push_back (int_to_char c)⟩, c)

/-- Writing the runs `r1, ..., rk` in order, each by one `xsputn(r, r.size())`. -/
def write_runs (sb : sdstreambuf charT) : List (List charT) → Option (sdstreambuf charT)
  | [] => some sb
  | r :: rs => (sb.xsputn r (r.length : Int)).bind fun res => write_runs res.1 rs

end sdstreambuf

/-- The characters of an ASCII literal as `char`s. -/
def lit (s : String) : List char :=
  s.toList.map fun c => Fin.ofNat c.toNat

/-- A string object holding exactly the given characters. -/
def basic_string.of_chars {charT : Type} {alloc : Allocator} (l : List charT) :
    basic_string charT alloc :=
  ⟨l, l.length⟩

/-- The store holding `"secret"` at address 0 and empty strings elsewhere. -/
def secret_store : Store char :=
  fun x => if x = 0 then basic_string.of_chars (lit "secret") else basic_string.empty

/-! ## Lemmas on the C library primitives -/

/-- When `traits::length(p)` is `n`: element `n` is the first NUL at `p`, and the
`n` elements before it are those up to the first NUL. -/
theorem strlen_spec {charT : Type} [CharT charT] [DecidableEq charT] :
    ∀ (p : List charT) (n : Nat), strlen p = some n →
      n < p.length ∧ p[n]? = some CharT.nul ∧ CharT.nul ∉ p.take n ∧
        p.take n = p.takeWhile (fun c => decide (c ≠ CharT.nul))
  | [], n, h => by simp [strlen] at h
  | c :: cs, n, h => by
    by_cases hc : c = CharT.nul
    · simp [strlen, hc] at h
      subst h
      simp [hc]
    · simp only [strlen, hc, if_false, Option.map_eq_some'] at h
      obtain ⟨m, hm, rfl⟩ := h
      obtain ⟨h1, h2, h3, h4⟩ := strlen_spec cs m hm
      refine ⟨by simpa using h1, by simpa using h2, ?_, ?_⟩
      · simp only [List.take_succ_cons, List.mem_cons, not_or]
        exact ⟨fun e => hc e.symm, h3⟩
      · simp [List.takeWhile_cons, hc, h4]

/-- The length of a `c_str()` buffer is defined, and its characters are those of
the string before its first NUL. -/
theorem strlen_append_nul {charT : Type} [CharT charT] [DecidableEq charT] :
    ∀ (l : List charT), ∃ n, strlen (l ++ [CharT.nul]) = some n ∧ n ≤ l.length ∧
      (l ++ [CharT.nul]).take n = l.takeWhile (fun c => decide (c ≠ CharT.nul))
  | [] => ⟨0, by simp [strlen], by simp, by simp⟩
  | c :: cs => by
    by_cases hc : c = CharT.nul
    · exact ⟨0, by simp [strlen, hc], by simp, by simp [hc]⟩
    · obtain ⟨m, hm, hle, ht⟩ := strlen_append_nul cs
      refine ⟨m + 1, by simp [strlen, hc, hm], by simpa using hle, ?_⟩
      simp [List.takeWhile_cons, hc, ht]

/-- The length of the `c_str()` buffer of a string without NUL is its size. -/
theorem strlen_append_nul_of_not_mem {charT : Type} [CharT charT] [DecidableEq charT] :
    ∀ (l : List charT), CharT.nul ∉ l → strlen (l ++ [CharT.nul]) = some l.length
  | [], _ => by simp [strlen]
  | c :: cs, h => by
    simp only [List.mem_cons, not_or] at h
    have hc : c ≠ CharT.nul := fun e => h.1 e.symm
    simp [strlen, hc, strlen_append_nul_of_not_mem cs h.2]

/-- An array of `k` elements occupies `k * sizeof(charT)` bytes. -/
theorem bytesOf_length {charT : Type} [CharT charT] (l : List charT) :
    (bytesOf l).length = l.length * CharT.sizeof charT := by
  induction l with
  | nil => simp [bytesOf]
  | cons c cs ih =>
    simp only [bytesOf, List.flatMap_cons, List.length_append, List.length_cons] at ih ⊢
    rw [ih, CharT.toBytes_length]; ring

/-- A block compares equal to itself. -/
theorem memcmp_scan_self (a : List Byte) : memcmp_scan a a = 0 := by
  induction a with
  | nil => simp [memcmp_scan]
  | cons x a ih => simp [memcmp_scan, ih]

/-- The call `memcmp(a, a, n)` is `0` when `n` bytes are readable. -/
theorem memcmp_self (a : List Byte) (n : Nat) (h : n ≤ a.length) : memcmp a a n = some 0 := by
  simp [memcmp, h, memcmp_scan_self]

/-! ## The allocator -/

/-- On a block of `n` elements, `deallocate(p, n)` zeroes the first `n` bytes
and leaves the remaining `n * sizeof(T) - n` bytes as they were. -/
theorem deallocate_of_block (block : List Byte) (n sizeofT : Nat) (hs : 0 < sizeofT)
    (hb : block.length = n * sizeofT) :
    secure_delete_allocator.deallocate block n
      = some (List.replicate n 0 ++ block.drop n) := by
  have hle : n ≤ block.length := by
    rw [hb]; exact Nat.le_mul_of_pos_right n hs
  simp [secure_delete_allocator.deallocate, memset, hle]

/-- For `T = char` the whole block is zero when it is freed. -/
theorem deallocate_char_zeroes (block : List Byte) (n : Nat)
    (hb : block.length = n * CharT.sizeof char) :
    ∃ r, secure_delete_allocator.deallocate block n = some r ∧ ∀ b ∈ r, b = 0 := by
  have h1 : block.length = n := by simpa [CharT.sizeof] using hb
  refine ⟨List.replicate n 0, ?_, ?_⟩
  · rw [deallocate_of_block block n 1 (by decide) (by simpa using h1)]
    simp [← h1]
  · intro b hb
    exact (List.mem_replicate.mp hb).2

/-- C1: `deallocate(p, n)` does not zero all `n * sizeof(T)` bytes when `T` is
`wchar_t`: on the four-byte block of one `wchar_t` `0x01010101` it zeroes the
first byte only (`memset(p, 0, n)` counts bytes, not elements) and hands
`[0, 1, 1, 1]` to `free`; so the statement "every block of `n` elements is all
zero when freed" is false for `wchar_t`. -/
theorem deallocate_wchar_t_leaves_bytes :
    (bytesOf ([16843009] : List wchar_t)).length = 1 * CharT.sizeof wchar_t ∧
    secure_delete_allocator.deallocate (bytesOf ([16843009] : List wchar_t)) 1
      = some [0, 1, 1, 1] ∧
    ¬ (∀ (block : List Byte) (n : Nat), block.length = n * CharT.sizeof wchar_t →
        ∃ r, secure_delete_allocator.deallocate block n = some r ∧ ∀ b ∈ r, b = 0) := by
  refine ⟨by decide, by decide, ?_⟩
  intro h
  obtain ⟨r, hr, hz⟩ := h (bytesOf ([16843009] : List wchar_t)) 1 (by decide)
  have hr2 : secure_delete_allocator.deallocate (bytesOf ([16843009] : List wchar_t)) 1
      = some [0, 1, 1, 1] := by decide
  rw [hr2] at hr
  cases hr
  exact absurd (hz 1 (by decide)) (by decide)

/-! ## Equality between secure and ordinary strings -/

/-- The conversion from an ordinary string always succeeds and keeps every
character, NULs included. -/
theorem of_std_string_eq {charT : Type} [CharT charT] (o : std_string charT) :
    basic_sdstring.of_std_string o = some ⟨o.chars, o.chars.length⟩ := by
  simp [basic_sdstring.of_std_string, basic_string.from_ptr_len, basic_string.data,
    basic_string.size]

/-- The copy constructor always succeeds and keeps every character. -/
theorem copy_ctor_eq {charT : Type} [CharT charT] (a : basic_sdstring charT) :
    basic_sdstring.copy_ctor a = some ⟨a.chars, a.chars.length⟩ := by
  simp [basic_sdstring.copy_ctor, basic_string.from_ptr_len, basic_string.data,
    basic_string.size]

/-- The `size()` bytes `memcmp` reads are inside the buffer `data()` points to. -/
theorem size_le_bytesOf_data {charT : Type} [CharT charT] {alloc : Allocator} (s : basic_string charT alloc) :
    s.size ≤ (bytesOf s.data).length := by
  rw [bytesOf_length]
  have h1 : s.size ≤ s.data.length := by simp [basic_string.size, basic_string.data]
  exact le_trans h1 (Nat.le_mul_of_pos_right _ CharT.sizeof_pos)

/-- Two secure strings with the same characters compare equal with the member
operators. -/
theorem operator_eq_of_chars_eq {charT : Type} [CharT charT]
    (s t : basic_sdstring charT) (h : s.chars = t.chars) :
    basic_sdstring.operator_eq s t = some true ∧ basic_sdstring.operator_ne s t = some false := by
  have hd : t.data = s.data := by simp [basic_string.data, h]
  have hs : t.size = s.size := by simp [basic_string.size, h]
  simp [basic_sdstring.operator_eq, basic_sdstring.operator_ne, hd, hs,
    memcmp_self _ _ (size_le_bytesOf_data s)]

/-- `S == O` is true and `S != O` is false whenever `S` and `O` hold the same
characters, whatever they are. -/
theorem eq_std_string_of_chars_eq {charT : Type} [CharT charT]
    (s : basic_sdstring charT) (o : std_string charT)
    (h : s.chars = o.chars) :
    basic_sdstring.eq_std_string s o = some true ∧
      basic_sdstring.ne_std_string s o = some false := by
  have := operator_eq_of_chars_eq s ⟨o.chars, o.chars.length⟩ h
  simpa [basic_sdstring.eq_std_string, basic_sdstring.ne_std_string, of_std_string_eq] using this

/-- `O == S` compares `O` with the characters of `S` before its first NUL. -/
theorem operator_eq_str_sd_eq {charT : Type} [CharT charT] [DecidableEq charT]
    (o : std_string charT) (s : basic_sdstring charT) :
    operator_eq_str_sd o s
      = some (decide (o.chars = s.chars.takeWhile (fun c => decide (c ≠ CharT.nul)))) ∧
    operator_ne_str_sd o s
      = some (!decide (o.chars = s.chars.takeWhile (fun c => decide (c ≠ CharT.nul)))) := by
  obtain ⟨n, hn, _, ht⟩ := strlen_append_nul s.chars
  simp [operator_eq_str_sd, operator_ne_str_sd, basic_string.eq_cstr, basic_string.ne_cstr,
    basic_string.c_str, basic_string.data, hn, ht]

/-- `O == S` is true and `O != S` is false when `S` and `O` hold the same
characters and none of them is NUL. -/
theorem operator_eq_str_sd_of_no_nul {charT : Type} [CharT charT] [DecidableEq charT]
    (o : std_string charT) (s : basic_sdstring charT)
    (h : o.chars = s.chars) (hn : CharT.nul ∉ s.chars) :
    operator_eq_str_sd o s = some true ∧ operator_ne_str_sd o s = some false := by
  have ht : s.chars.takeWhile (fun c => decide (c ≠ CharT.nul)) = s.chars := by
    rw [List.takeWhile_eq_self_iff]
    intro c hc
    have : c ≠ CharT.nul := fun e => hn (e ▸ hc)
    simpa using this
  obtain ⟨h1, h2⟩ := operator_eq_str_sd_eq o s
  rw [h1, h2, ht]
  simp [h]

/-- C2: with the same three bytes `a`, NUL, `b` in a secure string `S` and an
ordinary string `O`, `S == O` is true and `S != O` is false, but `O == S` is
false and `O != S` is true: the free operators compare `O` with `S.c_str()`,
which ends at the first NUL. -/
theorem eq_embedded_nul_asymmetric :
    basic_sdstring.eq_std_string (basic_string.of_chars [97, 0, 98] : sdstring)
        (basic_string.of_chars [97, 0, 98] : std_string char) = some true ∧
    basic_sdstring.ne_std_string (basic_string.of_chars [97, 0, 98] : sdstring)
        (basic_string.of_chars [97, 0, 98] : std_string char) = some false ∧
    operator_eq_str_sd (basic_string.of_chars [97, 0, 98] : std_string char)
        (basic_string.of_chars [97, 0, 98] : sdstring) = some false ∧
    operator_ne_str_sd (basic_string.of_chars [97, 0, 98] : std_string char)
        (basic_string.of_chars [97, 0, 98] : sdstring) = some true := by
  decide

/-! ## `compare` -/

/-- Equal lengths give the initial `iRet = 0`. -/
theorem size_t_sub_self (n : Nat) : size_t_to_int (size_t_sub n n) = 0 := by
  have h : size_t_sub n n = 0 := by
    unfold size_t_sub
    omega
  simp [h, size_t_to_int]

/-- For lengths below `2^31` the initial `iRet` is the exact signed difference. -/
theorem size_t_sub_small (a b : Nat) (ha : a < 2 ^ 31) (hb : b < 2 ^ 31) :
    size_t_to_int (size_t_sub a b) = (a : Int) - (b : Int) := by
  unfold size_t_to_int size_t_sub
  split <;> omega

/-- The difference of two promoted `char`s is zero exactly for equal bytes. -/
theorem char_to_int_sub_eq_zero (x y : char) : char_to_int x - char_to_int y = 0 ↔ x = y := by
  unfold char_to_int
  constructor
  · intro h
    apply Fin.ext
    have := x.isLt
    have := y.isLt
    split at h <;> split at h <;> omega
  · rintro rfl
    simp

/-- The loop stops as soon as `iRet` is nonzero. -/
theorem compare_loop_of_ne_zero (a b : List char) (rem i : Nat) (iRet : Int) (h : iRet ≠ 0) :
    basic_sdstring.compare_loop a b rem i iRet = some iRet := by
  cases rem <;> simp [basic_sdstring.compare_loop, h]

/-- One iteration of the loop with both reads in bounds. -/
theorem compare_loop_step (a b : List char) (rem i : Nat) (x y : char)
    (ha : a[i]? = some x) (hb : b[i]? = some y) :
    basic_sdstring.compare_loop a b (rem + 1) i 0
      = basic_sdstring.compare_loop a b rem (i + 1) (char_to_int x - char_to_int y) := by
  simp [basic_sdstring.compare_loop, ha, hb]

/-- An iteration at an index outside `b` is an out-of-bounds read. -/
theorem compare_loop_oob (a b : List char) (rem i : Nat) (h : b.length ≤ i) :
    basic_sdstring.compare_loop a b (rem + 1) i 0 = none := by
  have hb : b[i]? = none := List.getElem?_eq_none h
  cases ha : a[i]? <;> simp [basic_sdstring.compare_loop, ha, hb]

/-- The loop runs through `k` positions holding equal bytes with `iRet` still `0`. -/
theorem compare_loop_skip (a b : List char) (rem : Nat) :
    ∀ (k i : Nat), (∀ j, i ≤ j → j < i + k → ∃ x, a[j]? = some x ∧ b[j]? = some x) →
      basic_sdstring.compare_loop a b (k + rem) i 0 = basic_sdstring.compare_loop a b rem (i + k) 0
  | 0, i, _ => by simp
  | k + 1, i, h => by
    obtain ⟨x, hx, hy⟩ := h i (le_refl _) (by omega)
    have e : k + 1 + rem = (k + rem) + 1 := by omega
    rw [e, compare_loop_step a b _ i x x hx hy, sub_self,
      compare_loop_skip a b rem k (i + 1) (fun j h1 h2 => h j (by omega) (by omega))]
    congr 1
    omega

/-- The loop returns the difference at the first position holding unequal bytes. -/
theorem compare_loop_first_diff (a b : List char) (l i : Nat) (x y : char) (hi : i < l)
    (hx : a[i]? = some x) (hy : b[i]? = some y) (hne : x ≠ y)
    (hpre : ∀ j, j < i → ∃ z, a[j]? = some z ∧ b[j]? = some z) :
    basic_sdstring.compare_loop a b l 0 0 = some (char_to_int x - char_to_int y) := by
  have e : l = i + ((l - i - 1) + 1) := by omega
  rw [e, compare_loop_skip a b _ i 0 (fun j _ h2 => hpre j (by omega)), Nat.zero_add,
    compare_loop_step a b _ i x y hx hy]
  exact compare_loop_of_ne_zero _ _ _ _ _ (fun h => hne ((char_to_int_sub_eq_zero x y).mp h))

/-- If the loop ends with `0`, the bytes it ran over are pairwise equal. -/
theorem compare_loop_zero_imp (a b : List char) :
    ∀ (rem i : Nat), basic_sdstring.compare_loop a b rem i 0 = some 0 →
      ∀ j, i ≤ j → j < i + rem → a[j]? = b[j]? ∧ a[j]? ≠ none
  | 0, i, _ => fun j h1 h2 => by omega
  | rem + 1, i, h => by
    intro j h1 h2
    cases hx : a[i]? with
    | none => simp [basic_sdstring.compare_loop, hx] at h
    | some x =>
      cases hy : b[i]? with
      | none => simp [basic_sdstring.compare_loop, hx, hy] at h
      | some y =>
        rw [compare_loop_step a b rem i x y hx hy] at h
        by_cases hxy : x = y
        · subst hxy
          rw [sub_self] at h
          rcases Nat.eq_or_lt_of_le h1 with rfl | hlt
          · simp [hx, hy]
          · exact compare_loop_zero_imp a b rem (i + 1) h j hlt (by omega)
        · have hd : char_to_int x - char_to_int y ≠ 0 :=
            fun e => hxy ((char_to_int_sub_eq_zero x y).mp e)
          rw [compare_loop_of_ne_zero _ _ _ _ _ hd] at h
          exact absurd (Option.some.inj h) hd

/-- The loop returns when all the positions it can visit are inside both buffers. -/
theorem compare_loop_total (a b : List char) :
    ∀ (rem i : Nat) (iRet : Int), i + rem ≤ a.length → i + rem ≤ b.length →
      ∃ r, basic_sdstring.compare_loop a b rem i iRet = some r
  | 0, _, iRet, _, _ => ⟨iRet, rfl⟩
  | rem + 1, i, iRet, ha, hb => by
    by_cases h0 : iRet = 0
    · subst h0
      have hx : a[i]? = some (a[i]) := List.getElem?_eq_getElem (by omega)
      have hy : b[i]? = some (b[i]) := List.getElem?_eq_getElem (by omega)
      rw [compare_loop_step a b rem i _ _ hx hy]
      exact compare_loop_total a b rem (i + 1) _ (by omega) (by omega)
    · exact ⟨iRet, compare_loop_of_ne_zero _ _ _ _ _ h0⟩

/-- Inside the string, `c_str()` points at its characters. -/
theorem c_str_getElem? {charT : Type} [CharT charT] [DecidableEq charT] {alloc : Allocator}
    (s : basic_string charT alloc) (j : Nat) (h : j < s.size) :
    s.c_str[j]? = s.chars[j]? := by
  unfold basic_string.c_str basic_string.data
  exact List.getElem?_append_left h

/-- With equal lengths `compare` does not return early: it is the byte loop. -/
theorem compare_eq_loop {alloc : Allocator} (A : sdstring) (B : basic_string char alloc)
    (h : A.size = B.size) :
    basic_sdstring.compare A B = basic_sdstring.compare_loop A.c_str B.c_str A.size 0 0 := by
  unfold basic_sdstring.compare
  rw [← h, size_t_sub_self]
  simp

/-- With equal lengths `compare` returns; it returns the difference at the
first differing index, and `0` exactly for equal contents. -/
theorem compare_same_length_spec {alloc : Allocator} (A : sdstring) (B : basic_string char alloc)
    (h : A.size = B.size) :
    (∃ r, basic_sdstring.compare A B = some r) ∧
    (∀ (i : Nat) (x y : char), A.chars[i]? = some x → B.chars[i]? = some y → x ≠ y →
        (∀ j, j < i → A.chars[j]? = B.chars[j]?) →
        basic_sdstring.compare A B = some (char_to_int x - char_to_int y) ∧
          char_to_int x - char_to_int y ≠ 0) ∧
    (basic_sdstring.compare A B = some 0 ↔ A.chars = B.chars) := by
  rw [compare_eq_loop A B h]
  have hAlen : A.c_str.length = A.size + 1 := by
    simp [basic_string.c_str, basic_string.data, basic_string.size]
  have hBlen : B.c_str.length = A.size + 1 := by
    rw [h]; simp [basic_string.c_str, basic_string.data, basic_string.size]
  refine ⟨compare_loop_total _ _ _ 0 0 (by omega) (by omega), ?_, ?_⟩
  · intro i x y hx hy hne hpre
    have hi : i < A.size := by
      have := (List.getElem?_eq_some.mp hx).1
      simpa [basic_string.size] using this
    refine ⟨compare_loop_first_diff _ _ _ i x y hi ?_ ?_ hne ?_,
      fun e => hne ((char_to_int_sub_eq_zero x y).mp e)⟩
    · rw [c_str_getElem? A i hi, hx]
    · rw [c_str_getElem? B i (h ▸ hi), hy]
    · intro j hj
      have hjA : j < A.size := by omega
      rw [c_str_getElem? A j hjA, c_str_getElem? B j (h ▸ hjA), ← hpre j hj]
      exact ⟨A.chars[j], List.getElem?_eq_getElem hjA, List.getElem?_eq_getElem hjA⟩
  · constructor
    · intro hz
      apply List.ext_getElem?
      intro j
      by_cases hj : j < A.size
      · have := (compare_loop_zero_imp _ _ _ 0 hz j (Nat.zero_le _) (by omega)).1
        rwa [c_str_getElem? A j hj, c_str_getElem? B j (h ▸ hj)] at this
      · have h1 : A.chars.length ≤ j := by simpa [basic_string.size] using hj
        have h2 : B.chars.length ≤ j := by
          have : B.size ≤ j := h ▸ (by simpa using hj)
          simpa [basic_string.size] using this
        rw [List.getElem?_eq_none h1, List.getElem?_eq_none h2]
    · intro he
      have hc : B.c_str = A.c_str := by simp [basic_string.c_str, basic_string.data, he]
      rw [hc]
      have := compare_loop_skip A.c_str A.c_str 0 A.size 0 (fun j _ hj => by
        have hjl : j < A.c_str.length := by omega
        exact ⟨A.c_str[j], List.getElem?_eq_getElem hjl, List.getElem?_eq_getElem hjl⟩)
      simpa [basic_sdstring.compare_loop] using this

/-- C4: for a secure string `A` and a string `B` (secure or ordinary) of the same
length, `A.compare(B)` returns; it returns the nonzero difference
`A[i] - B[i]` of the signed chars at the smallest index `i` where the bytes
differ; and it returns `0` exactly when all bytes match. -/
theorem compare_same_length {alloc : Allocator} (A : sdstring) (B : basic_string char alloc)
    (h : A.size = B.size) :
    (∃ r, basic_sdstring.compare A B = some r) ∧
    (∀ (i : Nat) (x y : char), A.chars[i]? = some x → B.chars[i]? = some y → x ≠ y →
        (∀ j, j < i → A.chars[j]? = B.chars[j]?) →
        basic_sdstring.compare A B = some (char_to_int x - char_to_int y) ∧
          char_to_int x - char_to_int y ≠ 0) ∧
    (basic_sdstring.compare A B = some 0 ↔ A.chars = B.chars) :=
  compare_same_length_spec A B h

/-- C4 at `"abc"` against the ordinary `"abd"` (first difference at index 2,
`'c' - 'd' = -1`) and against the secure `"abc"` (result `0`). -/
theorem compare_same_length_witness :
    basic_sdstring.compare (basic_string.of_chars (lit "abc") : sdstring)
        (basic_string.of_chars (lit "abd") : std_string char) = some (-1) ∧
    basic_sdstring.compare (basic_string.of_chars (lit "abc") : sdstring)
        (basic_string.of_chars (lit "abc") : sdstring) = some 0 :=
  ⟨((compare_same_length (basic_string.of_chars (lit "abc") : sdstring)
      (basic_string.of_chars (lit "abd") : std_string char) (by decide)).2.1
      2 99 100 (by decide) (by decide) (by decide) (by decide)).1,
   (compare_same_length (basic_string.of_chars (lit "abc") : sdstring)
      (basic_string.of_chars (lit "abc") : sdstring) (by decide)).2.2.mpr rfl⟩

/-- For lengths below `2^31` that differ, `compare` returns the signed length
difference, whatever the buffers hold. -/
theorem compare_of_size_ne {alloc : Allocator} (A : sdstring) (B : basic_string char alloc)
    (hA : A.size < 2 ^ 31) (hB : B.size < 2 ^ 31) (hne : A.size ≠ B.size) :
    basic_sdstring.compare A B = some ((A.size : Int) - (B.size : Int)) := by
  unfold basic_sdstring.compare
  rw [size_t_sub_small _ _ hA hB]
  have : (A.size : Int) - (B.size : Int) ≠ 0 := by omega
  simp [this]

/-- The length of a string of `n` copies of one character. -/
theorem size_replicate {alloc : Allocator} (n : Nat) (c : char) :
    (basic_string.of_chars (List.replicate n c) : basic_string char alloc).size = n := by
  simp [basic_string.size, basic_string.of_chars]

/-- C3: the length short-circuit of `compare` fails for long strings.  With `A`
holding `2^31` NUL characters and `B` empty, `length(A) - length(B)` is
positive but `compare` returns `-2147483648`: the `size_t` difference is
narrowed to `int`.  With `A` holding `2^32` NUL characters and `B` empty the
narrowed difference is `0`, the short-circuit is not taken, and the byte loop
reads `B`'s buffer past its terminating NUL. -/
theorem compare_length_difference_truncated :
    basic_sdstring.compare (basic_string.of_chars (List.replicate (2 ^ 31) 0) : sdstring)
        (basic_string.empty : sdstring) = some (-2147483648) ∧
    basic_sdstring.compare (basic_string.of_chars (List.replicate (2 ^ 32) 0) : sdstring)
        (basic_string.empty : std_string char) = none := by
  constructor
  · unfold basic_sdstring.compare
    rw [size_replicate]
    have h : size_t_to_int (size_t_sub (2 ^ 31)
        (basic_string.empty : sdstring).size) = -2147483648 := by decide
    rw [h]
    rfl
  · unfold basic_sdstring.compare
    rw [size_replicate]
    have h : size_t_to_int (size_t_sub (2 ^ 32)
        (basic_string.empty : std_string char).size) = 0 := by decide
    rw [h]
    have e : (2 ^ 32 : Nat) = 4294967294 + 1 + 1 := by norm_num
    have hx : (basic_string.of_chars (List.replicate (4294967294 + 1 + 1) 0) : sdstring).c_str[0]?
        = some 0 := by
      rw [c_str_getElem? _ 0 (by rw [size_replicate]; omega)]
      simp only [basic_string.of_chars]
      rw [List.getElem?_replicate]
      simp
    have hy : (basic_string.empty : std_string char).c_str[0]? = some 0 := by decide
    rw [e]
    simp only [ne_eq, not_true_eq_false, if_false]
    rw [compare_loop_step _ _ _ 0 0 0 hx hy]
    exact compare_loop_oob _ _ _ _ (by decide)

/-! ## Concatenation -/

/-- Appending a NUL-terminated pointer appends the characters before its first
NUL. -/
theorem append_cstr_eq {charT : Type} [CharT charT] [DecidableEq charT] {alloc : Allocator}
    (s : basic_string charT alloc) (p : List charT) (n : Nat) (hp : strlen p = some n) :
    s.append_cstr p = some ⟨s.chars ++ p.take n, max s.capacity (s.chars.length + n)⟩ := by
  have hlt := (strlen_spec p n hp).1
  simp [basic_string.append_cstr, basic_string.append_n, hp, Nat.le_of_lt hlt]

/-- `O + S` returns `O` followed by the characters of `S` before its first NUL. -/
theorem operator_plus_str_sd_eq {charT : Type} [CharT charT] [DecidableEq charT]
    (o : std_string charT) (s : basic_sdstring charT) :
    ∃ r, operator_plus_str_sd o s = some r ∧
      r.chars = o.chars ++ s.chars.takeWhile (fun c => decide (c ≠ CharT.nul)) := by
  obtain ⟨n, hn, _, ht⟩ := strlen_append_nul s.chars
  have hn2 : strlen s.c_str = some n := by
    simpa [basic_string.c_str, basic_string.data] using hn
  have ht2 : s.c_str.take n = s.chars.takeWhile (fun c => decide (c ≠ CharT.nul)) := by
    simpa [basic_string.c_str, basic_string.data] using ht
  unfold operator_plus_str_sd
  simp only [append_cstr_eq _ _ n hn2]
  refine ⟨_, rfl, ?_⟩
  simp [basic_string.append, basic_string.reserve, basic_string.empty, ht2]

/-- C5: with `O = "foo"` and `S` holding the three bytes `b`, NUL, `r`, `O + S`
is the ordinary string `"foob"` of length 4, not the 6 bytes of `O` followed by
all of `S`: `S` is appended through `S.c_str()`, which ends at the first NUL.
`S + O` keeps all 6 bytes.  On the spec's example, `"foo" + S("bar")` is
`"foobar"` and `S("bar") + "foo"` is `"barfoo"`. -/
theorem operator_plus_str_sd_embedded_nul :
    operator_plus_str_sd (basic_string.of_chars (lit "foo") : std_string char)
        (basic_string.of_chars [98, 0, 114] : sdstring)
      = some ⟨lit "foob", 6⟩ ∧
    (operator_plus_sd_str (basic_string.of_chars [98, 0, 114] : sdstring)
        (basic_string.of_chars (lit "foo") : std_string char)).chars
      = [98, 0, 114] ++ lit "foo" ∧
    operator_plus_str_sd (basic_string.of_chars (lit "foo") : std_string char)
        (basic_string.of_chars (lit "bar") : sdstring)
      = some (basic_string.of_chars (lit "foobar")) ∧
    operator_plus_sd_str (basic_string.of_chars (lit "bar") : sdstring)
        (basic_string.of_chars (lit "foo") : std_string char)
      = basic_string.of_chars (lit "barfoo") := by
  decide

/-- C6: each of the four secure-result concatenations returns a secure string
holding the left operand's characters followed by the right operand's, of
length the sum of both lengths; a raw pointer `p` contributes the `n`
characters before its first NUL (`p[n]` is NUL and no NUL occurs before).
The operands are values passed by const reference; only the result is built. -/
theorem secure_concatenation {charT : Type} [CharT charT] [DecidableEq charT]
    (A B : basic_sdstring charT) (O : std_string charT) (S : sdstring)
    (p : List char) (n : Nat) (hp : strlen p = some n) :
    ((operator_plus_sd_sd A B).chars = A.chars ++ B.chars ∧
      (operator_plus_sd_sd A B).size = A.size + B.size) ∧
    ((operator_plus_sd_str A O).chars = A.chars ++ O.chars ∧
      (operator_plus_sd_str A O).size = A.size + O.size) ∧
    (∃ r, operator_plus_cstr_sd p S = some r ∧ r.chars = p.take n ++ S.chars ∧
      r.size = n + S.size) ∧
    (∃ r, operator_plus_sd_cstr S p = some r ∧ r.chars = S.chars ++ p.take n ∧
      r.size = S.size + n) ∧
    (p[n]? = some 0 ∧ (0 : char) ∉ p.take n) := by
  obtain ⟨hlt, hnul, hnot, _⟩ := strlen_spec p n hp
  have hlen : (p.take n).length = n := by simp [Nat.le_of_lt hlt]
  refine ⟨?_, ?_, ?_, ?_, hnul, hnot⟩
  · simp [operator_plus_sd_sd, basic_string.append, basic_string.reserve, basic_string.empty,
      basic_string.size]
  · simp [operator_plus_sd_str, basic_string.append, basic_string.reserve, basic_string.empty,
      basic_string.size]
  · unfold operator_plus_cstr_sd
    simp only [append_cstr_eq _ p n hp, Option.map_some']
    refine ⟨_, rfl, ?_, ?_⟩
    · simp [basic_string.append, basic_string.reserve, basic_string.empty]
    · simp [basic_string.append, basic_string.reserve, basic_string.empty, basic_string.size,
        Nat.le_of_lt hlt]
  · unfold operator_plus_sd_cstr
    simp only [append_cstr_eq _ p n hp]
    refine ⟨_, rfl, ?_, ?_⟩
    · simp [basic_string.append, basic_string.reserve, basic_string.empty]
    · simp [basic_string.append, basic_string.reserve, basic_string.empty, basic_string.size,
        Nat.le_of_lt hlt]

/-- C6 at `"ab" + "cd"`, `"ab" + "ef"`, and the pointer `"xy"` (followed in
memory by NUL and `z`) on either side of `"gh"`. -/
theorem secure_concatenation_witness :
    (operator_plus_sd_sd (basic_string.of_chars (lit "ab") : sdstring)
        (basic_string.of_chars (lit "cd"))).chars = lit "abcd" ∧
    (operator_plus_sd_str (basic_string.of_chars (lit "ab") : sdstring)
        (basic_string.of_chars (lit "ef"))).chars = lit "abef" ∧
    (∃ r, operator_plus_cstr_sd [120, 121, 0, 122] (basic_string.of_chars (lit "gh")) = some r ∧
      r.chars = lit "xygh" ∧ r.size = 2 + 2) ∧
    (∃ r, operator_plus_sd_cstr (basic_string.of_chars (lit "gh")) [120, 121, 0, 122] = some r ∧
      r.chars = lit "ghxy" ∧ r.size = 2 + 2) :=
  have h := secure_concatenation (basic_string.of_chars (lit "ab") : sdstring)
    (basic_string.of_chars (lit "cd")) (basic_string.of_chars (lit "ef"))
    (basic_string.of_chars (lit "gh")) [120, 121, 0, 122] 2 (by decide)
  ⟨h.1.1, h.2.1.1, h.2.2.1, h.2.2.2.1⟩

/-! ## Copy and move -/

/-- Reading the object just written. -/
theorem Store.set_same {charT : Type} (st : Store charT) (a : Addr) (v : basic_sdstring charT) :
    (st.set a v) a = v := by
  simp [Store.set]

/-- Writing one object leaves the objects at other addresses as they were. -/
theorem Store.set_other {charT : Type} (st : Store charT) (a b : Addr)
    (v : basic_sdstring charT) (h : b ≠ a) : (st.set a v) b = st b := by
  simp [Store.set, h]

/-- C7: for distinct objects `A` (at `a`) and `B` (at `b`), after copy
construction of `B` from `A`, and likewise after the copy assignment `B = A`,
`B` holds the characters of `A` and `A` is unchanged; whatever `B` is changed
to afterwards (any new value, or appending a NUL-terminated pointer), `A` is
as before, and whatever `A` is changed to, `B` keeps its copy. -/
theorem copy_independence {charT : Type} [CharT charT] [DecidableEq charT]
    (st : Store charT) (a b : Addr) (hab : a ≠ b) :
    (∃ st1, st.copy_construct b a = some st1 ∧
      (st1 b).chars = (st a).chars ∧ st1 a = st a ∧
      (∀ v, (st1.set b v) a = st a) ∧
      (∀ v, (st1.set a v) b = st1 b) ∧
      (∀ p st2, st1.append_cstr b p = some st2 → st2 a = st a) ∧
      (∀ p st2, st1.append_cstr a p = some st2 → st2 b = st1 b)) ∧
    ((st.copy_assign b a b).chars = (st a).chars ∧ (st.copy_assign b a) a = st a ∧
      (∀ v, ((st.copy_assign b a).set b v) a = st a) ∧
      (∀ v, ((st.copy_assign b a).set a v) b = (st.copy_assign b a) b) ∧
      (∀ p st2, (st.copy_assign b a).append_cstr b p = some st2 → st2 a = st a) ∧
      (∀ p st2, (st.copy_assign b a).append_cstr a p = some st2 →
        st2 b = (st.copy_assign b a) b)) := by
  have hba : b ≠ a := fun e => hab e.symm
  have frame : ∀ (s : Store charT) (x y : Addr), y ≠ x → ∀ p s2,
      s.append_cstr x p = some s2 → s2 y = s y := by
    intro s x y hxy p s2 h
    unfold Store.append_cstr at h
    cases hv : (s x).append_cstr p with
    | none => simp [hv] at h
    | some v =>
      simp only [hv, Option.map_some', Option.some.injEq] at h
      rw [← h, Store.set_other _ _ _ _ hxy]
  constructor
  · refine ⟨st.set b ⟨(st a).chars, (st a).chars.length⟩, ?_, ?_, ?_, ?_, ?_, ?_, ?_⟩
    · simp [Store.copy_construct, copy_ctor_eq]
    · simp [Store.set_same]
    · exact Store.set_other _ _ _ _ hab
    · intro v
      rw [Store.set_other _ _ _ _ hab, Store.set_other _ _ _ _ hab]
    · intro v
      rw [Store.set_other _ _ _ _ hba]
    · intro p st2 h
      rw [frame _ b a hab p st2 h, Store.set_other _ _ _ _ hab]
    · intro p st2 h
      exact frame _ a b hba p st2 h
  · have hca : st.copy_assign b a = st.set b ((st b).assign (st a)) := by
      simp [Store.copy_assign, hab]
    rw [hca]
    refine ⟨?_, ?_, ?_, ?_, ?_, ?_⟩
    · simp [Store.set_same, basic_string.assign]
    · exact Store.set_other _ _ _ _ hab
    · intro v
      rw [Store.set_other _ _ _ _ hab, Store.set_other _ _ _ _ hab]
    · intro v
      rw [Store.set_other _ _ _ _ hba]
    · intro p st2 h
      rw [frame _ b a hab p st2 h, Store.set_other _ _ _ _ hab]
    · intro p st2 h
      exact frame _ a b hba p st2 h

/-- C7 at `A = "secret"`, `B = A`, `B.append("!")`: `B` is `"secret!"` and `A`
is still `"secret"`. -/
theorem copy_independence_witness :
    ∃ st1 st2, secret_store.copy_construct 1 0 = some st1 ∧
      st1.append_cstr 1 (lit "!" ++ [0]) = some st2 ∧
      (st2 1).chars = lit "secret!" ∧ (st2 0).chars = lit "secret" := by
  obtain ⟨st1, h1, h2, -, -, -, h3, -⟩ :=
    (copy_independence secret_store 0 1 (by decide)).1
  have h4 := append_cstr_eq (st1 1) (lit "!" ++ [0]) 1 (by decide)
  have h5 : st1.append_cstr 1 (lit "!" ++ [0]) = some (st1.set 1
      ⟨(st1 1).chars ++ (lit "!" ++ [0]).take 1,
        max (st1 1).capacity ((st1 1).chars.length + 1)⟩) := by
    unfold Store.append_cstr
    rw [h4]
    rfl
  refine ⟨st1, _, h1, h5, ?_, ?_⟩
  · rw [Store.set_same]
    show (st1 1).chars ++ _ = _
    rw [h2]
    decide
  · rw [h3 _ _ h5]
    decide

/-- Assigning a NUL-terminated pointer stores the characters before its first
NUL. -/
theorem Store.assign_cstr_eq {charT : Type} [CharT charT] [DecidableEq charT]
    (st : Store charT) (a : Addr) (p : List charT) (n : Nat) (hp : strlen p = some n) :
    st.assign_cstr a p = some (st.set a ⟨p.take n, max (st a).capacity n⟩) := by
  have hlt := (strlen_spec p n hp).1
  simp [Store.assign_cstr, hp, Nat.le_of_lt hlt]

/-- C8: for distinct objects `A` (at `a`) and `B` (at `b`): after move
construction of `B` from `A`, `B` holds exactly what `A` held, whatever value
the library leaves in `A`; after the move assignment `B = std::move(A)`, `B`
holds the characters of `A` (and `A` still holds them); in both cases `A` can
be given a new value (any value, or a NUL-terminated pointer), after which `A`
holds that value and `B` is unchanged.  Self move-assignment changes nothing. -/
theorem move_transfers_content {charT : Type} [CharT charT] [DecidableEq charT]
    (st : Store charT) (a b : Addr) (hab : a ≠ b) :
    (∀ residue : basic_sdstring charT,
      (st.move_construct b a residue) b = st a ∧
      (st.move_construct b a residue) a = residue ∧
      (∀ v, ((st.move_construct b a residue).set a v) a = v ∧
        ((st.move_construct b a residue).set a v) b = st a) ∧
      (∀ p n, strlen p = some n → ∃ st2,
        (st.move_construct b a residue).assign_cstr a p = some st2 ∧
        (st2 a).chars = p.take n ∧ st2 b = st a)) ∧
    ((st.move_assign b a b).chars = (st a).chars ∧
      (st.move_assign b a) a = st a ∧
      (∀ v, ((st.move_assign b a).set a v) a = v ∧
        ((st.move_assign b a).set a v) b = (st.move_assign b a) b) ∧
      (∀ p n, strlen p = some n → ∃ st2,
        (st.move_assign b a).assign_cstr a p = some st2 ∧
        (st2 a).chars = p.take n ∧ st2 b = (st.move_assign b a) b)) ∧
    st.move_assign a a = st := by
  have hba : b ≠ a := fun e => hab e.symm
  refine ⟨?_, ?_, ?_⟩
  · intro residue
    have hb : (st.move_construct b a residue) b = st a := by
      unfold Store.move_construct
      rw [Store.set_other _ _ _ _ hba, Store.set_same]
    refine ⟨hb, ?_, ?_, ?_⟩
    · unfold Store.move_construct
      rw [Store.set_same]
    · intro v
      rw [Store.set_same, Store.set_other _ _ _ _ hba]
      exact ⟨rfl, hb⟩
    · intro p n hp
      refine ⟨_, Store.assign_cstr_eq _ a p n hp, ?_, ?_⟩
      · rw [Store.set_same]
      · rw [Store.set_other _ _ _ _ hba]
        exact hb
  · have hma : st.move_assign b a = st.set b ((st b).assign (st a)) := by
      simp [Store.move_assign, hab]
    rw [hma]
    refine ⟨?_, ?_, ?_, ?_⟩
    · simp [Store.set_same, basic_string.assign]
    · exact Store.set_other _ _ _ _ hab
    · intro v
      rw [Store.set_same, Store.set_other _ _ _ _ hba]
      exact ⟨rfl, rfl⟩
    · intro p n hp
      refine ⟨_, Store.assign_cstr_eq _ a p n hp, ?_, ?_⟩
      · rw [Store.set_same]
      · rw [Store.set_other _ _ _ _ hba]
  · simp [Store.move_assign]

/-- C8 at `A = "secret"`: `B` holds `"secret"` after move construction and after
move assignment, and `A = "new"` afterwards leaves `B` at `"secret"`. -/
theorem move_transfers_content_witness :
    (secret_store.move_construct 1 0 basic_string.empty 1).chars = lit "secret" ∧
    (secret_store.move_assign 1 0 1).chars = lit "secret" ∧
    (∃ st2, (secret_store.move_construct 1 0 basic_string.empty).assign_cstr 0
        (lit "new" ++ [0]) = some st2 ∧
      (st2 0).chars = lit "new" ∧ (st2 1).chars = lit "secret") :=
  have h := move_transfers_content secret_store 0 1 (by decide)
  ⟨by rw [(h.1 basic_string.empty).1]; decide,
   by rw [h.2.1.1]; decide,
   by
    obtain ⟨st2, h1, h2, h3⟩ := (h.1 basic_string.empty).2.2.2 (lit "new" ++ [0]) 3 (by decide)
    exact ⟨st2, h1, by rw [h2]; decide, by rw [h3]; decide⟩⟩

/-! ## The stream buffer -/

/-- The result of one `xsputn(s, n)` with `0 <= n` and `n` readable elements. -/
theorem xsputn_eq {charT : Type} [CharT charT] [DecidableEq charT]
    (sb : sdstreambuf charT) (s : List charT) (n : Int)
    (h0 : 0 ≤ n) (h63 : n < 2 ^ 63) (hn : n ≤ (s.length : Int)) :
    sb.xsputn s n = some (⟨⟨sb.sBuffer.chars ++ s.take n.toNat,
      max sb.sBuffer.capacity (sb.sBuffer.chars.length + n.toNat)⟩⟩, n) := by
  have hm : n % 2 ^ 64 = n := Int.emod_eq_of_lt h0 (by omega)
  have hle : n.toNat ≤ s.length := by omega
  unfold sdstreambuf.xsputn basic_string.append_n
  rw [hm, if_pos hle]
  rfl

/-- Writing runs one after the other appends their concatenation. -/
theorem write_runs_eq {charT : Type} [CharT charT] [DecidableEq charT] :
    ∀ (runs : List (List charT)) (sb : sdstreambuf charT),
      (∀ r ∈ runs, (r.length : Int) < 2 ^ 63) →
      ∃ sb1, sb.write_runs runs = some sb1 ∧
        sb1.sBuffer.chars = sb.sBuffer.chars ++ runs.flatten
  | [], sb, _ => ⟨sb, rfl, by simp⟩
  | r :: rs, sb, h => by
    have hr := xsputn_eq sb r (r.length : Int) (by omega) (h r (by simp)) (le_refl _)
    obtain ⟨sb1, h1, h2⟩ := write_runs_eq rs
      ⟨⟨sb.sBuffer.chars ++ r.take (r.length : Int).toNat,
        max sb.sBuffer.capacity (sb.sBuffer.chars.length + (r.length : Int).toNat)⟩⟩
      (fun x hx => h x (by simp [hx]))
    refine ⟨sb1, ?_, ?_⟩
    · simp only [sdstreambuf.write_runs, hr, Option.some_bind]
      exact h1
    · rw [h2]
      simp

/-- C9: for a bound string with content `c` and a request `xsputn(s, n)` with
`0 <= n` (a `streamsize`, so below `2^63`) and `n` readable elements at `s`,
the call returns `n` and the bound string becomes `c` followed by exactly the
`n` elements `s[0..n-1]`; hence writing the runs `r1, ..., rk` into an empty
string yields their concatenation. -/
theorem xsputn_appends {charT : Type} [CharT charT] [DecidableEq charT]
    (sb : sdstreambuf charT) (s : List charT) (n : Int)
    (h0 : 0 ≤ n) (h63 : n < 2 ^ 63) (hn : n ≤ (s.length : Int)) :
    (∃ sb1, sb.xsputn s n = some (sb1, n) ∧
      sb1.sBuffer.chars = sb.sBuffer.chars ++ s.take n.toNat ∧
      ((s.take n.toNat).length : Int) = n) ∧
    (∀ runs : List (List charT), (∀ r ∈ runs, (r.length : Int) < 2 ^ 63) →
      ∃ sb1, (⟨basic_string.empty⟩ : sdstreambuf charT).write_runs runs = some sb1 ∧
        sb1.sBuffer.chars = runs.flatten) := by
  constructor
  · refine ⟨_, xsputn_eq sb s n h0 h63 hn, rfl, ?_⟩
    rw [List.length_take]
    omega
  · intro runs h
    obtain ⟨sb1, h1, h2⟩ := write_runs_eq runs (⟨basic_string.empty⟩ : sdstreambuf charT) h
    exact ⟨sb1, h1, by simpa [basic_string.empty] using h2⟩

/-- C9 at the bound string `"hello"` with a three-element request holding a NUL,
and at the runs `"hello"`, `" "`, `"world"` written into an empty string,
which yield `"hello world"`. -/
theorem xsputn_appends_witness :
    (∃ sb1, (⟨basic_string.of_chars (lit "hello")⟩ : sdstreambuf char).xsputn
        [32, 0, 119, 111] 3 = some (sb1, 3) ∧
      sb1.sBuffer.chars = lit "hello" ++ [32, 0, 119]) ∧
    (∃ sb1, (⟨basic_string.empty⟩ : sdstreambuf char).write_runs
        [lit "hello", lit " ", lit "world"] = some sb1 ∧
      sb1.sBuffer.chars = lit "hello world") :=
  have h := xsputn_appends (⟨basic_string.of_chars (lit "hello")⟩ : sdstreambuf char)
    [32, 0, 119, 111] 3 (by decide) (by decide) (by decide)
  ⟨by
    obtain ⟨sb1, h1, h2, _⟩ := h.1
    exact ⟨sb1, h1, h2⟩,
   by
    obtain ⟨sb1, h1, h2⟩ := h.2 [lit "hello", lit " ", lit "world"] (by decide)
    exact ⟨sb1, h1, by rw [h2]; decide⟩⟩

/-- C10: for every bound string with content `c` and every `int` value `ch`,
`overflow(ch)` returns `ch`, and the bound string becomes `c` followed by the
one character `(char)ch` (the byte `ch mod 256`), so its length grows by one;
this includes the end-of-file value `-1`, which appends the byte `255`. -/
theorem overflow_appends_one (sb : sdstreambuf char) (ch : Int) :
    (sb.overflow ch).2 = ch ∧
    (sb.overflow ch).1.sBuffer.chars = sb.sBuffer.chars ++ [int_to_char ch] ∧
    (sb.overflow ch).1.sBuffer.size = sb.sBuffer.size + 1 ∧
    ((int_to_char ch).val : Int) = ch % 256 ∧
    ((sb.overflow (-1)).2 = -1 ∧
      (sb.overflow (-1)).1.sBuffer.chars = sb.sBuffer.chars ++ [255]) := by
  refine ⟨rfl, rfl, ?_, ?_, rfl, rfl⟩
  · simp [sdstreambuf.overflow, basic_string.push_back, basic_string.size]
  · unfold int_to_char
    have h1 : 0 ≤ ch % 256 := Int.emod_nonneg _ (by decide)
    have h2 : ch % 256 < 256 := Int.emod_lt_of_pos _ (by decide)
    simp only [Fin.ofNat, Fin.val_mk]
    omega

/-! ## Allocator equality and sizes -/

/-- C11: for allocator objects `a`, `b`, `c` of any element types, `a == b` is
true and `a != b` is false, so `!=` is the negation of `==`, and `==` is
reflexive, symmetric and transitive. -/
theorem allocator_always_equal {T U V : Type} (a : secure_delete_allocator T)
    (b : secure_delete_allocator U) (c : secure_delete_allocator V) :
    secure_delete_allocator.operator_eq a b = true ∧
    secure_delete_allocator.operator_ne a b = false ∧
    secure_delete_allocator.operator_ne a b = !secure_delete_allocator.operator_eq a b ∧
    secure_delete_allocator.operator_eq a a = true ∧
    secure_delete_allocator.operator_eq a b = secure_delete_allocator.operator_eq b a ∧
    (secure_delete_allocator.operator_eq a b = true →
      secure_delete_allocator.operator_eq b c = true →
      secure_delete_allocator.operator_eq a c = true) :=
  ⟨rfl, rfl, rfl, rfl, rfl, fun _ _ => rfl⟩

/-- A count `n` fits, `n * s <= 2^64 - 1`, exactly when `n <= max_size()`. -/
theorem count_le_max_size_iff (s : Nat) (hs : 1 ≤ s) (n : Nat) :
    n * s ≤ 2 ^ 64 - 1 ↔ n ≤ secure_delete_allocator.max_size s := by
  have hpos : 0 < s := hs
  unfold secure_delete_allocator.max_size
  exact (Nat.le_div_iff_mul_le hpos).symm

/-- C12: for an element size `s >= 1`, `max_size()` is the quotient
`(2^64 - 1) / s` rounded down, and it is the largest `n` with
`n * s <= 2^64 - 1`: a count `n` satisfies the bound exactly when
`n <= max_size()`. -/
theorem max_size_is_largest_count (s : Nat) (hs : 1 ≤ s) :
    secure_delete_allocator.max_size s = (2 ^ 64 - 1) / s ∧
    secure_delete_allocator.max_size s * s ≤ 2 ^ 64 - 1 ∧
    (∀ n : Nat, n * s ≤ 2 ^ 64 - 1 ↔ n ≤ secure_delete_allocator.max_size s) := by
  have hpos : 0 < s := hs
  refine ⟨rfl, Nat.div_mul_le_self _ _, fun n => ?_⟩
  unfold secure_delete_allocator.max_size
  exact (Nat.le_div_iff_mul_le hpos).symm

/-- C12 at `wchar_t` (size 4: `2^62 - 1` elements, and `2^62` is already too
many) and at `char` (size 1: `2^64 - 1` elements). -/
theorem max_size_is_largest_count_witness :
    secure_delete_allocator.max_size (CharT.sizeof wchar_t) = 4611686018427387903 ∧
    secure_delete_allocator.max_size (CharT.sizeof char) = 18446744073709551615 ∧
    (4611686018427387904 * CharT.sizeof wchar_t ≤ 2 ^ 64 - 1 ↔
      4611686018427387904 ≤ secure_delete_allocator.max_size (CharT.sizeof wchar_t)) :=
  ⟨(max_size_is_largest_count (CharT.sizeof wchar_t) (by decide)).1.trans (by decide),
   (max_size_is_largest_count (CharT.sizeof char) (by decide)).1.trans (by decide),
   (max_size_is_largest_count (CharT.sizeof wchar_t) (by decide)).2.2 4611686018427387904⟩

/-- For `T = char` the claim C18 makes for every element type fails: no
`size_t` value `n` exceeds `max_size()`, which is `2^64 - 1`, so no count that
`allocate(std::size_t)` can receive makes the byte count wrap. -/
theorem allocate_char_never_wraps :
    secure_delete_allocator.max_size (CharT.sizeof char) = 2 ^ 64 - 1 ∧
    ¬ ∃ n : Nat, n < 2 ^ 64 ∧ secure_delete_allocator.max_size (CharT.sizeof char) < n ∧
      secure_delete_allocator.allocate_bytes (CharT.sizeof char) n
        < n * CharT.sizeof char := by
  have hm : secure_delete_allocator.max_size (CharT.sizeof char) = 2 ^ 64 - 1 := by decide
  refine ⟨hm, ?_⟩
  rintro ⟨n, h1, h2, _⟩
  rw [hm] at h2
  omega

/-- C18, amended: for an element size `s >= 1`: for every `n <= max_size()` the
byte count `n * sizeof(T)` passed to `malloc` is the exact product; every
`n > max_size()` makes it wrap to less than `n * sizeof(T)`; such an `n`
exists among the `size_t` values exactly when `s >= 2` (`max_size() + 1` is
one, and for `s = 1` every `size_t` is at most `max_size()`); `allocate` is
`malloc` of that byte count whatever `n` is, and it returns the null pointer
when `malloc` does. -/
theorem allocate_byte_count (s : Nat) (hs : 1 ≤ s) :
    (∀ n : Nat, n ≤ secure_delete_allocator.max_size s →
      secure_delete_allocator.allocate_bytes s n = n * s) ∧
    (∀ n : Nat, secure_delete_allocator.max_size s < n →
      secure_delete_allocator.allocate_bytes s n < n * s) ∧
    (2 ≤ s → secure_delete_allocator.max_size s + 1 < 2 ^ 64 ∧
      secure_delete_allocator.allocate_bytes s (secure_delete_allocator.max_size s + 1)
        < (secure_delete_allocator.max_size s + 1) * s) ∧
    (s = 1 → ∀ n : Nat, n < 2 ^ 64 → n ≤ secure_delete_allocator.max_size s) ∧
    ((∃ n : Nat, n < 2 ^ 64 ∧ secure_delete_allocator.max_size s < n) ↔ 2 ≤ s) ∧
    (∀ (malloc : Nat → Option Nat) (n : Nat),
      secure_delete_allocator.allocate malloc s n
        = malloc (secure_delete_allocator.allocate_bytes s n)) ∧
    (∀ (malloc : Nat → Option Nat) (n : Nat),
      malloc (secure_delete_allocator.allocate_bytes s n) = none →
      secure_delete_allocator.allocate malloc s n = none) := by
  have hpos : 0 < s := hs
  have hiff := count_le_max_size_iff s hs
  have hwrap : ∀ n : Nat, secure_delete_allocator.max_size s < n →
      secure_delete_allocator.allocate_bytes s n < n * s := by
    intro n hn
    have h1 : ¬ n * s ≤ 2 ^ 64 - 1 := fun h => absurd ((hiff n).mp h) (by omega)
    unfold secure_delete_allocator.allocate_bytes size_t_mul
    have h2 : n * s % 2 ^ 64 < 2 ^ 64 := Nat.mod_lt _ (by norm_num)
    omega
  have hex : 2 ≤ s → secure_delete_allocator.max_size s + 1 < 2 ^ 64 := by
    intro h2
    unfold secure_delete_allocator.max_size
    have : (2 ^ 64 - 1) / s ≤ (2 ^ 64 - 1) / 2 := Nat.div_le_div_left h2 (by decide)
    have e : (2 ^ 64 - 1) / 2 = 9223372036854775807 := by norm_num
    omega
  have hone : s = 1 → ∀ n : Nat, n < 2 ^ 64 → n ≤ secure_delete_allocator.max_size s := by
    intro h1 n hn
    subst h1
    have : secure_delete_allocator.max_size 1 = 2 ^ 64 - 1 := by decide
    omega
  refine ⟨?_, hwrap, fun h2 => ⟨hex h2, hwrap _ (Nat.lt_succ_self _)⟩, hone, ?_,
    fun _ _ => rfl, fun _ _ h => h⟩
  · intro n hn
    have h1 : n * s ≤ 2 ^ 64 - 1 := (hiff n).mpr hn
    unfold secure_delete_allocator.allocate_bytes size_t_mul
    exact Nat.mod_eq_of_lt (by omega)
  · constructor
    · rintro ⟨n, hn, hlt⟩
      by_contra h2
      have h1 : s = 1 := by omega
      have := hone h1 n hn
      omega
    · intro h2
      exact ⟨_, hex h2, Nat.lt_succ_self _⟩

/-- C18 at `wchar_t`: `max_size()` elements take `2^64 - 4` bytes, while for
`max_size() + 2` elements `malloc` is asked for 4 bytes; a failing `malloc`
gives the null pointer. -/
theorem allocate_byte_count_witness :
    secure_delete_allocator.allocate_bytes (CharT.sizeof wchar_t) 4611686018427387903
      = 18446744073709551612 ∧
    secure_delete_allocator.allocate_bytes (CharT.sizeof wchar_t) 4611686018427387905
      < 4611686018427387905 * 4 ∧
    secure_delete_allocator.allocate_bytes (CharT.sizeof wchar_t) 4611686018427387905 = 4 ∧
    secure_delete_allocator.allocate (fun _ => none) (CharT.sizeof wchar_t) 4611686018427387905
      = none :=
  have h := allocate_byte_count (CharT.sizeof wchar_t) (by decide)
  ⟨(h.1 4611686018427387903 (by decide)).trans (by decide),
   h.2.1 4611686018427387905 (by decide),
   by decide,
   h.2.2.2.2.2.2 (fun _ => none) 4611686018427387905 rfl⟩

/-! ## The capacity reserved by `operator+` -/

/-- The two overloads taking string objects reserve the sum of both lengths. -/
theorem operator_plus_reserve_sum {charT : Type} [CharT charT]
    (lhs rhs : basic_sdstring charT) (o : std_string charT)
    (h1 : lhs.size + rhs.size < 2 ^ 64) (h2 : lhs.size + o.size < 2 ^ 64) :
    operator_plus_sd_sd_reserve lhs rhs = lhs.size + rhs.size ∧
    operator_plus_sd_str_reserve lhs o = lhs.size + o.size := by
  unfold operator_plus_sd_sd_reserve operator_plus_sd_str_reserve size_t_add
  exact ⟨Nat.mod_eq_of_lt h1, Nat.mod_eq_of_lt h2⟩

/-- C13: the raw-pointer overloads of `operator+` do not reserve the sum of the
operand lengths.  With the pointer `"hello world!"` (length 12) and the secure
string `"x"` (length 1), `pointer + secure` reserves `sizeof(lhs) + rhs.size()`,
which is 9, and `secure + pointer` reserves `ret.size() + sizeof(rhs)`, which is
8, while the result has 13 characters; on the same operands the overloads
taking string objects reserve 13. -/
theorem operator_plus_pointer_reserve_sizeof :
    strlen (lit "hello world!" ++ [0]) = some 12 ∧
    operator_plus_cstr_sd_reserve (lit "hello world!" ++ [0])
        (basic_string.of_chars (lit "x")) = 9 ∧
    (operator_plus_cstr_sd (lit "hello world!" ++ [0])
        (basic_string.of_chars (lit "x"))).map basic_string.size = some 13 ∧
    operator_plus_sd_cstr_reserve (basic_string.of_chars (lit "x"))
        (lit "hello world!" ++ [0]) = 8 ∧
    (operator_plus_sd_cstr (basic_string.of_chars (lit "x"))
        (lit "hello world!" ++ [0])).map basic_string.size = some 13 ∧
    operator_plus_sd_sd_reserve (basic_string.of_chars (lit "x") : sdstring)
        (basic_string.of_chars (lit "hello world!")) = 13 ∧
    operator_plus_sd_str_reserve (basic_string.of_chars (lit "x") : sdstring)
        (basic_string.of_chars (lit "hello world!")) = 13 := by
  decide

/-! ## The member equality operators -/

/-- An array of `char` is its own object representation. -/
theorem bytesOf_char (l : List char) : bytesOf l = l := by
  induction l with
  | nil => rfl
  | cons c cs ih =>
    have : bytesOf (c :: cs) = c :: bytesOf cs := rfl
    rw [this, ih]

/-- The scan of two blocks of equal length is `0` exactly when they are equal. -/
theorem memcmp_scan_eq_zero : ∀ (a b : List Byte), a.length = b.length →
    (memcmp_scan a b = 0 ↔ a = b)
  | [], [], _ => by simp [memcmp_scan]
  | [], _ :: _, h => by simp at h
  | _ :: _, [], h => by simp at h
  | x :: a, y :: b, h => by
    have hl : a.length = b.length := by simpa using h
    by_cases hxy : x = y
    · subst hxy
      simp [memcmp_scan, memcmp_scan_eq_zero a b hl]
    · have hv : (x.val : Int) - (y.val : Int) ≠ 0 := by
        intro e
        apply hxy
        apply Fin.ext
        omega
      simp [memcmp_scan, hxy, hv]

/-- With `n` readable bytes on both sides, `memcmp` returns, and returns `0`
exactly when the first `n` bytes agree. -/
theorem memcmp_eq_zero (a b : List Byte) (n : Nat) (ha : n ≤ a.length) (hb : n ≤ b.length) :
    memcmp a b n = some (memcmp_scan (a.take n) (b.take n)) ∧
    (memcmp_scan (a.take n) (b.take n) = 0 ↔ a.take n = b.take n) := by
  refine ⟨by simp [memcmp, ha, hb], memcmp_scan_eq_zero _ _ ?_⟩
  simp [List.length_take, ha, hb]

/-- For `char` strings the member `==` is equality of the character sequences
and the member `!=` its negation. -/
theorem operator_eq_char (A B : sdstring) :
    basic_sdstring.operator_eq A B = some (decide (A.chars = B.chars)) ∧
    basic_sdstring.operator_ne A B = some (!decide (A.chars = B.chars)) := by
  by_cases hs : B.size = A.size
  · have hA : A.size ≤ (A.chars ++ [(0 : char)]).length := by simp [basic_string.size]
    have hB : A.size ≤ (B.chars ++ [(0 : char)]).length := by
      rw [← hs]; simp [basic_string.size]
    obtain ⟨h1, h2⟩ := memcmp_eq_zero (B.chars ++ [(0 : char)]) (A.chars ++ [(0 : char)])
      A.size hB hA
    have tA : (A.chars ++ [(0 : char)]).take A.size = A.chars := by simp [basic_string.size]
    have tB : (B.chars ++ [(0 : char)]).take A.size = B.chars := by
      rw [← hs]; simp [basic_string.size]
    rw [tA, tB] at h1 h2
    have e : (A.chars = B.chars) ↔ (B.chars = A.chars) := eq_comm
    unfold basic_sdstring.operator_eq basic_sdstring.operator_ne
    rw [bytesOf_char, bytesOf_char]
    simp only [hs, ne_eq, not_true_eq_false, if_false]
    show (memcmp (B.chars ++ [(0 : char)]) (A.chars ++ [(0 : char)]) A.size).map _ = _ ∧
      (memcmp (B.chars ++ [(0 : char)]) (A.chars ++ [(0 : char)]) A.size).map _ = _
    rw [h1]
    simp [h2, e]
  · have hne : A.chars ≠ B.chars := by
      intro e
      apply hs
      simp [basic_string.size, e]
    simp [basic_sdstring.operator_eq, basic_sdstring.operator_ne, hs, hne]

/-- C14: the member `==` does not compare the full buffer of a wide string.
For the `sdwstring`s `L"ab"` and `L"ac"` (equal length, buffers differing in
their fifth byte) `A == B` is true and `A != B` is false: `memcmp` is given
`size()`, 2, as its byte count, not `size() * sizeof(charT)`.  The `char`
strings `"ab"` and `"ac"` compare unequal. -/
theorem operator_eq_wide_compares_prefix :
    basic_sdstring.operator_eq (basic_string.of_chars [97, 98] : sdwstring)
        (basic_string.of_chars [97, 99]) = some true ∧
    basic_sdstring.operator_ne (basic_string.of_chars [97, 98] : sdwstring)
        (basic_string.of_chars [97, 99]) = some false ∧
    bytesOf ([97, 98] : List wchar_t) = [97, 0, 0, 0, 98, 0, 0, 0] ∧
    bytesOf ([97, 99] : List wchar_t) = [97, 0, 0, 0, 99, 0, 0, 0] ∧
    basic_sdstring.operator_eq (basic_string.of_chars [97, 98] : sdstring)
        (basic_string.of_chars [97, 99]) = some false ∧
    basic_sdstring.operator_ne (basic_string.of_chars [97, 98] : sdstring)
        (basic_string.of_chars [97, 99]) = some true := by
  decide

/-- The length of a NUL-terminated pointer does not depend on the memory after
its first NUL. -/
theorem strlen_take {charT : Type} [CharT charT] [DecidableEq charT] :
    ∀ (p : List charT) (n : Nat), strlen p = some n → strlen (p.take (n + 1)) = some n
  | [], n, h => by simp [strlen] at h
  | c :: cs, n, h => by
    by_cases hc : c = CharT.nul
    · simp [strlen, hc] at h
      subst h
      simp [strlen, hc]
    · simp only [strlen, hc, if_false, Option.map_eq_some'] at h
      obtain ⟨m, hm, rfl⟩ := h
      simp [strlen, hc, strlen_take cs m hm]

/-- Construction from a NUL-terminated pointer keeps the characters before its
first NUL. -/
theorem of_cstr_eq (p : List char) (n : Nat) (hp : strlen p = some n) :
    basic_sdstring.of_cstr p = some ⟨p.take n, n⟩ := by
  have hlt := (strlen_spec p n hp).1
  simp [basic_sdstring.of_cstr, basic_string.from_cstr, basic_string.from_ptr_len, hp,
    Nat.le_of_lt hlt]

/-- `S == p` is equality of `S` with the characters of `p` before its first NUL,
and `S != p` its negation. -/
theorem operator_eq_cstr_eq (S : sdstring) (p : List char) (n : Nat) (hp : strlen p = some n) :
    basic_sdstring.operator_eq_cstr S p = some (decide (S.chars = p.take n)) ∧
    basic_sdstring.operator_ne_cstr S p = some (!decide (S.chars = p.take n)) := by
  have hlt := (strlen_spec p n hp).1
  have hlen : (p.take n).length = n := by simp [Nat.le_of_lt hlt]
  unfold basic_sdstring.operator_eq_cstr basic_sdstring.operator_ne_cstr
  rw [of_cstr_eq p n hp, bytesOf_char, bytesOf_char]
  simp only [Option.some_bind, basic_string.size, hlen]
  by_cases hs : n = S.chars.length
  · have hp2 : S.chars.length ≤ p.length := by omega
    have hS : S.chars.length ≤ S.data.length := by simp [basic_string.data]
    obtain ⟨h1, h2⟩ := memcmp_eq_zero p S.data S.chars.length hp2 hS
    have tS : S.data.take S.chars.length = S.chars := by simp [basic_string.data]
    rw [tS, ← hs] at h2
    have e : (S.chars = p.take n) ↔ (p.take n = S.chars) := eq_comm
    simp only [hs, ne_eq, not_true_eq_false, if_false, h1, Option.map_some']
    rw [tS, ← hs]
    simp [h2, e]
  · have hne : S.chars ≠ p.take n := by
      intro e
      apply hs
      rw [e, hlen]
    simp [hs, hne]

/-- C15: for a secure string `S` and a pointer `p` whose first NUL is at index
`n`: `S == p` is true exactly when the characters of `S` are the `n`
characters of `p` before that NUL, and `S != p` is its negation; an `S`
holding a NUL is never equal to `p`; and the results are the same when the
memory readable at `p` ends right after the NUL, so nothing beyond it is read. -/
theorem operator_eq_cstr_content (S : sdstring) (p : List char) (n : Nat)
    (hp : strlen p = some n) :
    basic_sdstring.operator_eq_cstr S p = some (decide (S.chars = p.take n)) ∧
    basic_sdstring.operator_ne_cstr S p = some (!decide (S.chars = p.take n)) ∧
    (p[n]? = some 0 ∧ (0 : char) ∉ p.take n) ∧
    ((0 : char) ∈ S.chars → basic_sdstring.operator_eq_cstr S p = some false ∧
      basic_sdstring.operator_ne_cstr S p = some true) ∧
    (basic_sdstring.operator_eq_cstr S (p.take (n + 1)) = basic_sdstring.operator_eq_cstr S p ∧
      basic_sdstring.operator_ne_cstr S (p.take (n + 1))
        = basic_sdstring.operator_ne_cstr S p) := by
  obtain ⟨h1, h2⟩ := operator_eq_cstr_eq S p n hp
  obtain ⟨_, hnul, hnot, _⟩ := strlen_spec p n hp
  obtain ⟨h3, h4⟩ := operator_eq_cstr_eq S (p.take (n + 1)) n (strlen_take p n hp)
  have ht : (p.take (n + 1)).take n = p.take n := by
    rw [List.take_take]; simp
  refine ⟨h1, h2, ⟨hnul, hnot⟩, ?_, ?_⟩
  · intro hmem
    have hne : S.chars ≠ p.take n := fun e => hnot (e ▸ hmem)
    rw [h1, h2]
    simp [hne]
  · rw [h3, h4, h1, h2, ht]
    exact ⟨rfl, rfl⟩

/-- C15 at `S = "ab"` and the pointer `"ab"` followed in memory by NUL and `c`
(equal), at `S` holding `a`, NUL (not equal), and with the memory cut after
the NUL (same result). -/
theorem operator_eq_cstr_content_witness :
    basic_sdstring.operator_eq_cstr (basic_string.of_chars (lit "ab")) [97, 98, 0, 99]
      = some true ∧
    basic_sdstring.operator_ne_cstr (basic_string.of_chars (lit "ab")) [97, 98, 0, 99]
      = some false ∧
    basic_sdstring.operator_eq_cstr (basic_string.of_chars [97, 0]) [97, 98, 0, 99]
      = some false ∧
    basic_sdstring.operator_eq_cstr (basic_string.of_chars (lit "ab")) [97, 98, 0]
      = basic_sdstring.operator_eq_cstr (basic_string.of_chars (lit "ab")) [97, 98, 0, 99] :=
  ⟨(operator_eq_cstr_content (basic_string.of_chars (lit "ab")) [97, 98, 0, 99] 2
      (by decide)).1,
   (operator_eq_cstr_content (basic_string.of_chars (lit "ab")) [97, 98, 0, 99] 2
      (by decide)).2.1,
   ((operator_eq_cstr_content (basic_string.of_chars [97, 0]) [97, 98, 0, 99] 2
      (by decide)).2.2.2.1 (by decide)).1,
   (operator_eq_cstr_content (basic_string.of_chars (lit "ab")) [97, 98, 0, 99] 2
      (by decide)).2.2.2.2.1⟩

/-! ## `compare` as an order -/

/-- Swapping the two buffers negates the result of the loop. -/
theorem compare_loop_neg (a b : List char) :
    ∀ (rem i : Nat) (iRet r : Int), basic_sdstring.compare_loop a b rem i iRet = some r →
      basic_sdstring.compare_loop b a rem i (-iRet) = some (-r)
  | 0, _, iRet, r, h => by
    simp only [basic_sdstring.compare_loop, Option.some.injEq] at h ⊢
    omega
  | rem + 1, i, iRet, r, h => by
    by_cases h0 : iRet = 0
    · subst h0
      cases hx : a[i]? with
      | none => simp [basic_sdstring.compare_loop, hx] at h
      | some x =>
        cases hy : b[i]? with
        | none => simp [basic_sdstring.compare_loop, hx, hy] at h
        | some y =>
          rw [compare_loop_step a b rem i x y hx hy] at h
          have := compare_loop_neg a b rem (i + 1) _ r h
          rw [neg_zero, compare_loop_step b a rem i y x hy hx]
          rwa [neg_sub] at this
    · rw [compare_loop_of_ne_zero _ _ _ _ _ h0] at h
      have hr : r = iRet := (Option.some.inj h).symm
      subst hr
      exact compare_loop_of_ne_zero _ _ _ _ _ (by omega)

/-- C16: for secure strings `A`, `B` with lengths below `2^31`, both
`A.compare(B)` and `B.compare(A)` return, the second the negation of the first,
so their signs are opposite; the result is `0` exactly when `A` and `B` have
the same length and the same bytes, that is exactly when `A == B`; and a
shorter string compares less than a longer one whatever the bytes are. -/
theorem compare_antisymmetric (A B : sdstring) (hA : A.size < 2 ^ 31) (hB : B.size < 2 ^ 31) :
    ∃ r : Int, basic_sdstring.compare A B = some r ∧
      basic_sdstring.compare B A = some (-r) ∧
      Int.sign r = -Int.sign (-r) ∧
      (r = 0 ↔ A.size = B.size ∧ A.chars = B.chars) ∧
      (r = 0 ↔ basic_sdstring.operator_eq A B = some true) ∧
      (A.size < B.size → r < 0) ∧
      (B.size < A.size → 0 < r) := by
  have heq : ∀ r : Int, (r = 0 ↔ A.size = B.size ∧ A.chars = B.chars) →
      (r = 0 ↔ basic_sdstring.operator_eq A B = some true) := by
    intro r h
    rw [(operator_eq_char A B).1, h]
    constructor
    · intro hh
      simp [hh.2]
    · intro hh
      have hc : A.chars = B.chars := by simpa using hh
      exact ⟨by simp [basic_string.size, hc], hc⟩
  by_cases hs : A.size = B.size
  · obtain ⟨⟨r, hr⟩, _, hz⟩ := compare_same_length_spec A B hs
    have hr2 : basic_sdstring.compare B A = some (-r) := by
      rw [compare_eq_loop B A hs.symm]
      rw [compare_eq_loop A B hs] at hr
      have := compare_loop_neg _ _ _ _ _ _ hr
      rw [neg_zero, hs] at this
      exact this
    have hiff : r = 0 ↔ A.size = B.size ∧ A.chars = B.chars := by
      rw [← hz, hr]
      constructor
      · intro h; subst h; exact ⟨hs, rfl⟩
      · intro h; exact Option.some.inj h.2
    refine ⟨r, hr, hr2, by rw [Int.sign_neg, neg_neg], hiff, heq r hiff, ?_, ?_⟩
    · intro h; omega
    · intro h; omega
  · have h1 := compare_of_size_ne A B hA hB hs
    have h2 := compare_of_size_ne B A hB hA (fun e => hs e.symm)
    have hiff : (A.size : Int) - (B.size : Int) = 0 ↔ A.size = B.size ∧ A.chars = B.chars := by
      constructor
      · intro h; omega
      · intro h; exact absurd h.1 hs
    refine ⟨(A.size : Int) - (B.size : Int), h1, ?_, by rw [Int.sign_neg, neg_neg], hiff, heq _ hiff, ?_, ?_⟩
    · rw [h2, neg_sub]
    · intro h; omega
    · intro h; omega

/-- C16 at `"b"` and `"ab"`: the shorter `"b"` compares less than `"ab"`, which
a lexicographic order would put first. -/
theorem compare_antisymmetric_witness :
    ∃ r : Int, basic_sdstring.compare (basic_string.of_chars (lit "b") : sdstring)
        (basic_string.of_chars (lit "ab") : sdstring) = some r ∧
      basic_sdstring.compare (basic_string.of_chars (lit "ab") : sdstring)
        (basic_string.of_chars (lit "b") : sdstring) = some (-r) ∧ r < 0 := by
  obtain ⟨r, h1, h2, _, _, _, h3, _⟩ := compare_antisymmetric
    (basic_string.of_chars (lit "b")) (basic_string.of_chars (lit "ab"))
    (by decide) (by decide)
  exact ⟨r, h1, h2, h3 (by decide)⟩

/-! ## `find` -/

/-- The search loop returns the index of the first character equal to `c`, or
`npos` when there is none. -/
theorem find_loop_spec {charT : Type} [DecidableEq charT] (c : charT) :
    ∀ (l : List charT) (i : Nat),
      (i ≤ basic_string.find_loop c l i ∧ basic_string.find_loop c l i < i + l.length ∧
        l[basic_string.find_loop c l i - i]? = some c ∧
        ∀ j : Nat, j < basic_string.find_loop c l i - i → l[j]? ≠ some c) ∨
      (basic_string.find_loop c l i = basic_string.npos ∧ ∀ j : Nat, l[j]? ≠ some c)
  | [], i => Or.inr ⟨rfl, fun j => by simp⟩
  | x :: xs, i => by
    by_cases hx : x = c
    · left
      simp [basic_string.find_loop, hx]
    · have hstep : basic_string.find_loop c (x :: xs) i = basic_string.find_loop c xs (i + 1) := by
        simp [basic_string.find_loop, hx]
      rw [hstep]
      rcases find_loop_spec c xs (i + 1) with ⟨h1, h2, h3, h4⟩ | ⟨h1, h2⟩
      · left
        have e : basic_string.find_loop c xs (i + 1) - i
            = (basic_string.find_loop c xs (i + 1) - (i + 1)) + 1 := by omega
        refine ⟨by omega, by simp only [List.length_cons]; omega, ?_, ?_⟩
        · rw [e, List.getElem?_cons_succ]
          exact h3
        · intro j hj
          cases j with
          | zero => simpa using hx
          | succ k =>
            rw [List.getElem?_cons_succ]
            exact h4 k (by omega)
      · right
        refine ⟨h1, fun j => ?_⟩
        cases j with
        | zero => simpa using hx
        | succ k =>
          rw [List.getElem?_cons_succ]
          exact h2 k

/-- The member `find(c, pos)` returns the smallest index at or after `pos` holding
`c`, or `npos` when there is none. -/
theorem find_char_spec {charT : Type} [CharT charT] [DecidableEq charT] {alloc : Allocator}
    (s : basic_string charT alloc) (c : charT) (pos : Nat) :
    (pos ≤ s.find_char c pos ∧ s.find_char c pos < s.size ∧
      s.chars[s.find_char c pos]? = some c ∧
      ∀ j : Nat, pos ≤ j → j < s.find_char c pos → s.chars[j]? ≠ some c) ∨
    (s.find_char c pos = basic_string.npos ∧ ∀ j : Nat, pos ≤ j → s.chars[j]? ≠ some c) := by
  unfold basic_string.find_char
  rcases find_loop_spec c (s.chars.drop pos) pos with ⟨h1, h2, h3, h4⟩ | ⟨h1, h2⟩
  · left
    rw [List.getElem?_drop] at h3
    have e : pos + (basic_string.find_loop c (s.chars.drop pos) pos - pos)
        = basic_string.find_loop c (s.chars.drop pos) pos := by omega
    rw [e] at h3
    refine ⟨h1, ?_, h3, ?_⟩
    · have := (List.getElem?_eq_some.mp h3).1
      simpa [basic_string.size] using this
    · intro j hj1 hj2
      have := h4 (j - pos) (by omega)
      rw [List.getElem?_drop] at this
      have e2 : pos + (j - pos) = j := by omega
      rwa [e2] at this
  · right
    refine ⟨h1, fun j hj => ?_⟩
    have := h2 (j - pos)
    rw [List.getElem?_drop] at this
    have e2 : pos + (j - pos) = j := by omega
    rwa [e2] at this

/-- The member `find(in, pos)` searches for the first character of `in`, or for
NUL when `in` is empty. -/
theorem find_eq {charT : Type} [CharT charT] [DecidableEq charT]
    (S : basic_sdstring charT) (N : std_string charT) (pos : Nat) :
    basic_sdstring.find S N pos = some (S.find_char (N.chars.headD CharT.nul) pos) := by
  unfold basic_sdstring.find basic_string.c_str basic_string.data
  cases N.chars <;> rfl

/-- A nonempty needle occurring at index `j` puts its first character there. -/
theorem getElem?_of_occurs {charT : Type} (l t : List charT) (c : charT) (j : Nat)
    (h : (l.drop j).take (c :: t).length = c :: t) : l[j]? = some c := by
  have h0 : l[j]? = (l.drop j)[0]? := by rw [List.getElem?_drop]; rfl
  rw [h0]
  cases hd : l.drop j with
  | nil => rw [hd] at h; simp at h
  | cons x xs =>
    rw [hd] at h
    simp only [List.length_cons, List.take_succ_cons, List.cons.injEq] at h
    simp [h.1]

/-- A one-character needle occurs wherever its character stands. -/
theorem occurs_of_getElem? {charT : Type} (l : List charT) (c : charT) (v : Nat)
    (h : l[v]? = some c) : (l.drop v).take 1 = [c] := by
  obtain ⟨hv, hc⟩ := List.getElem?_eq_some.mp h
  rw [List.drop_eq_getElem_cons hv, hc]
  simp

/-- C17: `S.find(N, pos)` returns a value `v` that is the smallest index
`i >= pos` of `S` holding the character `N[0]` (NUL when `N` is empty), or
`npos` when no such index exists; it is the same for every needle with the
same first character; a nonempty `N` does not occur as a substring at any
index from `pos` up to `v`, and a one-character `N` occurs at `v`.  So `v` is
the first occurrence of `N` as a substring exactly when `N` matches at `v`:
in `"abcabd"` the needle `"abd"` is reported at 0 and occurs at 3 only. -/
theorem find_first_character {charT : Type} [CharT charT] [DecidableEq charT]
    (S : basic_sdstring charT) (N : std_string charT) (pos : Nat) :
    ∃ v : Nat, basic_sdstring.find S N pos = some v ∧
      ((pos ≤ v ∧ v < S.size ∧ S.chars[v]? = some (N.chars.headD CharT.nul) ∧
          ∀ j : Nat, pos ≤ j → j < v → S.chars[j]? ≠ some (N.chars.headD CharT.nul)) ∨
        (v = basic_string.npos ∧
          ∀ j : Nat, pos ≤ j → S.chars[j]? ≠ some (N.chars.headD CharT.nul))) ∧
      (∀ N2 : std_string charT, N2.chars.head? = N.chars.head? →
        basic_sdstring.find S N2 pos = some v) ∧
      (N.chars = [] → v = S.find_char CharT.nul pos) ∧
      (N.chars ≠ [] → ∀ j : Nat, pos ≤ j → j < v →
        (S.chars.drop j).take N.size ≠ N.chars) ∧
      (N.size = 1 → S.chars[v]? = some (N.chars.headD CharT.nul) →
        (S.chars.drop v).take N.size = N.chars) ∧
      (basic_sdstring.find (basic_string.of_chars (lit "abcabd") : sdstring)
          (basic_string.of_chars (lit "abd")) 0 = some 0 ∧
        ((lit "abcabd").drop 0).take 3 ≠ lit "abd" ∧
        ((lit "abcabd").drop 3).take 3 = lit "abd") := by
  refine ⟨_, find_eq S N pos, find_char_spec S _ pos, ?_, ?_, ?_, ?_, by decide⟩
  · intro N2 h
    rw [find_eq S N2 pos]
    have : N2.chars.headD CharT.nul = N.chars.headD CharT.nul := by
      cases h2 : N2.chars <;> cases h1 : N.chars <;> simp_all
    rw [this]
  · intro h
    rw [h]
    rfl
  · intro hne j hj1 hj2 hocc
    cases hN : N.chars with
    | nil => exact hne hN
    | cons c t =>
      have hget : S.chars[j]? = some c := by
        apply getElem?_of_occurs S.chars t c j
        rw [← hN]
        exact hocc
      rcases find_char_spec S (N.chars.headD CharT.nul) pos with ⟨_, _, _, h4⟩ | ⟨h1, h2⟩
      · apply h4 j hj1 hj2
        rw [hN]
        exact hget
      · apply h2 j hj1
        rw [hN]
        exact hget
  · intro h1 hget
    cases hN : N.chars with
    | nil => simp [basic_string.size, hN] at h1
    | cons c t =>
      have ht : t = [] := by
        have : (c :: t).length = 1 := by rw [← hN]; exact h1
        simpa using this
      subst ht
      rw [hN] at hget
      rw [h1]
      exact occurs_of_getElem? S.chars c _ hget

end SDString
